import Mathlib

/-!
Verification of the `TransparentUnzip` stream wrapper
(src/hgvmbuilder/transparentunzip.py).

The wrapper pulls fixed-size chunks from an underlying byte stream,
detects on the first chunk whether the data is gzip-compressed, and then
either decompresses chunks (restarting a fresh decoder at each
concatenated-member boundary) or passes raw bytes through.  Bytes are
delivered through `read`, `readline` and line iteration, and two counters
track throughput.

Bytes are modelled as `Nat`, streams as `List Nat`.  The zlib
decompressor object is an external collaborator; it is modelled by a toy
gzip codec that is structurally faithful to the contract the code relies
on: a member starts with the two magic bytes 31, 139 (decoding fails
immediately on a wrong magic byte, succeeds and waits on a proper
prefix), produces decompressed output incrementally, and once a member is
complete exposes all further fed bytes as `unused_data`.  `flush` returns
the output not yet delivered, which for this eager codec is always empty.

The Python `while` loops are modelled with explicit fuel; the public
wrappers instantiate the fuel with `mu s + 1`, a bound proven sufficient
(`mu` strictly decreases at every productive `buffer_chunk`), so the
wrappers compute exactly what the unbounded loops compute.
-/

namespace TransparentUnzipModel

/-- Parsing phase of the toy gzip member decoder: expecting the first or
second magic byte, then a length byte, then `body k` payload bytes;
`done` means the member is complete and all further input is trailing
unused data. -/
inductive Phase where
  | magic1 : Phase
  | magic2 : Phase
  | lenByte : Phase
  | body : Nat → Phase
  | done : Phase
deriving DecidableEq

/-- Model of a zlib decompressor object (the external collaborator):
its current parsing phase plus the `unused_data` left over after the
logical end of a member. -/
structure Decompressor where
  phase : Phase
  unused_data : List Nat
deriving DecidableEq

/-- A freshly constructed decompressor (zlib.decompressobj with the gzip
header flag). -/
def freshDecompressor : Decompressor := ⟨Phase.magic1, []⟩

/-- Incremental decoding of a byte list from a given phase.  Returns the
new phase, the decompressed output, and the trailing bytes fed after the
member completed.  Errors (zlib.error) exactly on a wrong magic byte. -/
def decompBytes : Phase → List Nat → Except Unit (Phase × List Nat × List Nat)
  | ph, [] => Except.ok (ph, [], [])
  | ph, b :: rest =>
    match ph with
    | Phase.magic1 =>
        if b = 31 then decompBytes Phase.magic2 rest else Except.error ()
    | Phase.magic2 =>
        if b = 139 then decompBytes Phase.lenByte rest else Except.error ()
    | Phase.lenByte =>
        decompBytes (if b = 0 then Phase.done else Phase.body b) rest
    | Phase.body k =>
        (decompBytes (if k = 1 then Phase.done else Phase.body (k - 1)) rest).map
          (fun r => (r.1, b :: r.2.1, r.2.2))
    | Phase.done => Except.ok (Phase.done, [], b :: rest)

/-- The decompressor's `decompress` method: feed bytes, get output, or
raise zlib.error; trailing bytes accumulate in `unused_data`. -/
def decompress (d : Decompressor) (input : List Nat) :
    Except Unit (Decompressor × List Nat) :=
  match decompBytes d.phase input with
  | Except.error e => Except.error e
  | Except.ok (ph, out, extra) => Except.ok (⟨ph, d.unused_data ++ extra⟩, out)

/-- The decompressor's `flush` method: remaining buffered output.  The
toy codec emits all output eagerly in `decompress`, so nothing is ever
pending. -/
def flushOut (_ : Decompressor) : List Nat := []

/-- Encoding of one gzip member with the given decompressed payload:
magic bytes, a length byte, then the payload. -/
def encodeMember (p : List Nat) : List Nat := 31 :: 139 :: p.length :: p

/-- State of a `TransparentUnzip` object: the remaining underlying
stream, the active decompressor (or none), the tri-state
compression-detected flag `header_read`, the internal byte buffer, and
the two throughput counters. -/
structure TransparentUnzip where
  stream : List Nat
  decompressor : Option Decompressor
  header_read : Option Bool
  buffer : List Nat
  compressed_bytes : Nat
  uncompressed_bytes : Nat
deriving DecidableEq

/-- `TransparentUnzip.__init__` wrapping the given underlying stream. -/
def initTU (stream : List Nat) : TransparentUnzip :=
  ⟨stream, some freshDecompressor, none, [], 0, 0⟩

/-- Pull one chunk of at most `cs` bytes from the underlying stream and
count it (`compressed = self.stream.read(16 * 2 ** 10)` followed by
`self.compressed_bytes += len(compressed)`). -/
def readChunk (cs : Nat) (s : TransparentUnzip) : TransparentUnzip × List Nat :=
  ({ s with stream := s.stream.drop cs,
            compressed_bytes := s.compressed_bytes + (s.stream.take cs).length },
   s.stream.take cs)

/-- First half of `buffer_chunk`: if a decompressor is active and has
leftover `unused_data`, flush it, replace it by a fresh decompressor and
recycle the leftover bytes as the next compressed chunk; otherwise read a
chunk from the underlying stream. -/
def stepInput (cs : Nat) (s : TransparentUnzip) : TransparentUnzip × List Nat :=
  match s.decompressor with
  | some d =>
      if d.unused_data = [] then readChunk cs s
      else
        ({ s with buffer := s.buffer ++ flushOut d,
                  decompressor := some freshDecompressor },
         d.unused_data)
  | none => readChunk cs s

/-- `TransparentUnzip.buffer_chunk` with refill chunk size `cs` (16 KiB
in the source).  Returns the updated state and whether data could be
read; `Except.error` is a propagated exception (zlib.error on a non-first
chunk, or using the absent decompressor). -/
def buffer_chunk (cs : Nat) (s : TransparentUnzip) :
    Except Unit (TransparentUnzip × Bool) :=
  let p := stepInput cs s
  let s1 := p.1
  let compressed := p.2
  if compressed = [] then
    match s1.decompressor, s1.header_read with
    | some d, some true =>
        Except.ok ({ s1 with buffer := s1.buffer ++ flushOut d,
                             decompressor := none }, true)
    | _, _ => Except.ok (s1, false)
  else
    match s1.header_read, s1.decompressor with
    | none, some d =>
        match decompress d compressed with
        | Except.ok (d2, out) =>
            Except.ok ({ s1 with decompressor := some d2,
                                 buffer := s1.buffer ++ out,
                                 header_read := some true }, true)
        | Except.error _ =>
            Except.ok ({ s1 with buffer := s1.buffer ++ compressed,
                                 header_read := some false }, true)
    | none, none => Except.error ()
    | some true, some d =>
        match decompress d compressed with
        | Except.ok (d2, out) =>
            Except.ok ({ s1 with decompressor := some d2,
                                 buffer := s1.buffer ++ out }, true)
        | Except.error e => Except.error e
    | some true, none => Except.error ()
    | some false, _ =>
        Except.ok ({ s1 with buffer := s1.buffer ++ compressed }, true)

/-- Length of the active decompressor's `unused_data` (0 when absent). -/
def unusedLen (s : TransparentUnzip) : Nat :=
  match s.decompressor with
  | some d => d.unused_data.length
  | none => 0

/-- 1 when a decompressor is active. -/
def decAlive (s : TransparentUnzip) : Nat :=
  match s.decompressor with
  | some _ => 1
  | none => 0

/-- Termination measure: strictly decreases at every `buffer_chunk` that
returns `true`. -/
def mu (s : TransparentUnzip) : Nat :=
  2 * s.stream.length + unusedLen s + decAlive s

/-- The refill loop of `read`: `while size > len(self.buffer) and
self.buffer_chunk(): pass`, with explicit fuel. -/
def readLoopF (cs size : Nat) : Nat → TransparentUnzip → Except Unit TransparentUnzip
  | 0, s => if size ≤ s.buffer.length then Except.ok s else Except.error ()
  | fuel + 1, s =>
    if size ≤ s.buffer.length then Except.ok s
    else
      match buffer_chunk cs s with
      | Except.error e => Except.error e
      | Except.ok (s', false) => Except.ok s'
      | Except.ok (s', true) => readLoopF cs size fuel s'

/-- `TransparentUnzip.read` with explicit fuel: run the refill loop, then
take `size` bytes off the front of the buffer and count them. -/
def readF (fuel cs size : Nat) (s : TransparentUnzip) :
    Except Unit (TransparentUnzip × List Nat) :=
  match readLoopF cs size fuel s with
  | Except.error e => Except.error e
  | Except.ok s1 =>
      Except.ok ({ s1 with buffer := s1.buffer.drop size,
                           uncompressed_bytes :=
                             s1.uncompressed_bytes + (s1.buffer.take size).length },
                 s1.buffer.take size)

/-- `TransparentUnzip.read`: the fuel `mu s + 1` is sufficient, so this
computes what the unbounded Python loop computes. -/
def read (cs size : Nat) (s : TransparentUnzip) :
    Except Unit (TransparentUnzip × List Nat) :=
  readF (mu s + 1) cs size s

/-- Index of the first newline byte (10) in `l` carrying the absolute
index `i` of the head of `l`. -/
def findNLAux : List Nat → Nat → Option Nat
  | [], _ => none
  | b :: rest, i => if b = 10 then some i else findNLAux rest (i + 1)

/-- `self.buffer.find("\n", start)`: index of the first newline at
position `start` or later. -/
def findNL (l : List Nat) (start : Nat) : Option Nat :=
  findNLAux (l.drop start) start

/-- The `readline` loop guard: no newline found yet, and either no limit
or the buffer is still below `max_bytes`. -/
def needMore (mb : Option Nat) (s : TransparentUnzip) (ni : Option Nat) : Bool :=
  ni.isNone &&
    (match mb with
     | none => true
     | some m => decide (s.buffer.length < m))

/-- The scan-and-refill loop of `readline`, with explicit fuel: while the
guard holds and `buffer_chunk` returns true, rescan only the newly
appended part of the buffer. -/
def readlineLoopF (cs : Nat) (mb : Option Nat) :
    Nat → TransparentUnzip → Option Nat → Nat →
      Except Unit (TransparentUnzip × Option Nat)
  | 0, s, ni, _checked =>
    if needMore mb s ni then Except.error () else Except.ok (s, ni)
  | fuel + 1, s, ni, checked =>
    if needMore mb s ni then
      match buffer_chunk cs s with
      | Except.error e => Except.error e
      | Except.ok (s', false) => Except.ok (s', ni)
      | Except.ok (s', true) =>
          readlineLoopF cs mb fuel s' (findNL s'.buffer checked) s'.buffer.length
    else Except.ok (s, ni)

/-- `TransparentUnzip.readline` with explicit fuel for its loop: find a
newline (or hit the limit, or exhaust the source) and deliver the bytes
through `read`. -/
def readlineF (fuel cs : Nat) (mb : Option Nat) (s : TransparentUnzip) :
    Except Unit (TransparentUnzip × List Nat) :=
  match readlineLoopF cs mb fuel s (findNL s.buffer 0) s.buffer.length with
  | Except.error e => Except.error e
  | Except.ok (s1, ni) =>
    match ni with
    | some i => read cs (i + 1) s1
    | none =>
      match mb with
      | none => read cs s1.buffer.length s1
      | some m => read cs m s1

/-- `TransparentUnzip.readline` (with `max_bytes = none` for the
unbounded variant). -/
def readline (cs : Nat) (mb : Option Nat) (s : TransparentUnzip) :
    Except Unit (TransparentUnzip × List Nat) :=
  readlineF (mu s + 1) cs mb s

/-- `TransparentUnzip.next`: one step of line iteration; `none` models
StopIteration (an empty `readline` result). -/
def next (cs : Nat) (s : TransparentUnzip) :
    Except Unit (Option (TransparentUnzip × List Nat)) :=
  match readline cs none s with
  | Except.error e => Except.error e
  | Except.ok (s', line) =>
      if line = [] then Except.ok none else Except.ok (some (s', line))

/-- `TransparentUnzip.start_stats`: reset both throughput counters. -/
def start_stats (s : TransparentUnzip) : TransparentUnzip :=
  { s with compressed_bytes := 0, uncompressed_bytes := 0 }

/-- `TransparentUnzip.get_stats`: the pair (compressed bytes consumed,
uncompressed bytes delivered). -/
def get_stats (s : TransparentUnzip) : Nat × Nat :=
  (s.compressed_bytes, s.uncompressed_bytes)

/-- All bytes the wrapper will ever deliver from state `s`: run
`buffer_chunk` until it reports no more data and return the final buffer
contents (every delivered byte flows through the buffer).  Fueled. -/
def futureF (cs : Nat) : Nat → TransparentUnzip → Except Unit (List Nat)
  | 0, _ => Except.error ()
  | fuel + 1, s =>
    match buffer_chunk cs s with
    | Except.error e => Except.error e
    | Except.ok (s', true) => futureF cs fuel s'
    | Except.ok (s', false) => Except.ok s'.buffer

/-- Total remaining output of state `s` (fuel `mu s + 1` is sufficient). -/
def future (cs : Nat) (s : TransparentUnzip) : Except Unit (List Nat) :=
  futureF cs (mu s + 1) s

/-- Repeatedly call `read cs k` until it returns an empty result and
concatenate all results, with explicit fuel. -/
def readAllF : Nat → Nat → Nat → TransparentUnzip → Except Unit (List Nat)
  | 0, _, _, _ => Except.error ()
  | fuel + 1, cs, k, s =>
    match read cs k s with
    | Except.error e => Except.error e
    | Except.ok (s', part) =>
        if part = [] then Except.ok []
        else (readAllF fuel cs k s').map (fun rest => part ++ rest)

/-- Concatenation of all results of repeated `read cs k` calls until an
empty result (sufficient fuel: one call per output byte plus one). -/
def readAll (cs k : Nat) (s : TransparentUnzip) : Except Unit (List Nat) :=
  readAllF (s.buffer.length + unusedLen s + s.stream.length + 1) cs k s

/-- Repeatedly call unbounded `readline` until it returns an empty result
and concatenate all lines, with explicit fuel. -/
def linesAllF : Nat → Nat → TransparentUnzip → Except Unit (List Nat)
  | 0, _, _ => Except.error ()
  | fuel + 1, cs, s =>
    match readline cs none s with
    | Except.error e => Except.error e
    | Except.ok (s', line) =>
        if line = [] then Except.ok []
        else (linesAllF fuel cs s').map (fun rest => line ++ rest)

/-- Concatenation of all results of repeated unbounded `readline` calls
until an empty result. -/
def linesAll (cs : Nat) (s : TransparentUnzip) : Except Unit (List Nat) :=
  linesAllF (s.buffer.length + unusedLen s + s.stream.length + 1) cs s

/-- `Yields ph input out`: feeding the whole of `input` from phase `ph`,
restarting a fresh member parse at each member boundary, succeeds and
produces exactly `out`. -/
inductive Yields : Phase → List Nat → List Nat → Prop where
  | last : ∀ ph input ph1 out,
      decompBytes ph input = Except.ok (ph1, out, []) → Yields ph input out
  | step : ∀ ph input ph1 out extra out2,
      decompBytes ph input = Except.ok (ph1, out, extra) → extra ≠ [] →
      Yields Phase.magic1 extra out2 → Yields ph input (out ++ out2)

/-- Invariant of a reader in confirmed-gzip mode: the remaining
compressed input (the decoder's leftover trailing data followed by the
rest of the stream) decodes, restarting at member boundaries, to exactly
`rest` more output bytes. -/
def InvC (s : TransparentUnzip) (rest : List Nat) : Prop :=
  s.header_read = some true ∧
  ∃ d, s.decompressor = some d ∧
    ((d.unused_data = [] ∧ Yields d.phase s.stream rest) ∨
     (d.unused_data ≠ [] ∧ d.phase = Phase.done ∧
        Yields Phase.magic1 (d.unused_data ++ s.stream) rest))


end TransparentUnzipModel

namespace TransparentUnzipModel

/-! ### Lemmas about the toy decoder -/

theorem decompBytes_nil (ph : Phase) : decompBytes ph [] = Except.ok (ph, [], []) := by
  cases ph <;> rfl

theorem decompBytes_done (l : List Nat) :
    decompBytes Phase.done l = Except.ok (Phase.done, [], l) := by
  cases l <;> rfl

theorem decompBytes_body_cons (k x : Nat) (t : List Nat) :
    decompBytes (Phase.body k) (x :: t) =
      (decompBytes (if k = 1 then Phase.done else Phase.body (k - 1)) t).map
        (fun r => (r.1, x :: r.2.1, r.2.2)) := rfl

theorem decompBytes_error_append {ph : Phase} {a : List Nat} (b : List Nat)
    (h : decompBytes ph a = Except.error ()) :
    decompBytes ph (a ++ b) = Except.error () := by
  induction a generalizing ph with
  | nil => rw [decompBytes_nil] at h; exact absurd h (by simp)
  | cons x rest ih =>
    cases ph with
    | magic1 =>
      by_cases hx : x = 31 <;>
        simp only [List.cons_append, List.append_eq, decompBytes, hx, if_true, if_false, reduceIte] at h ⊢
      exact ih h
    | magic2 =>
      by_cases hx : x = 139 <;>
        simp only [List.cons_append, List.append_eq, decompBytes, hx, if_true, if_false, reduceIte] at h ⊢
      exact ih h
    | lenByte =>
      simp only [List.cons_append, List.append_eq, decompBytes] at h ⊢
      exact ih h
    | body k =>
      simp only [List.cons_append, List.append_eq, decompBytes] at h ⊢
      cases hr : decompBytes (if k = 1 then Phase.done else Phase.body (k - 1)) rest with
      | error e' =>
        cases e'
        rw [ih hr]
        rfl
      | ok r =>
        rw [hr] at h
        simp [Except.map] at h
    | done => rw [decompBytes_done] at h; exact absurd h (by simp)

theorem decompBytes_append_nil {ph ph1 : Phase} {a out : List Nat}
    (b : List Nat) (h : decompBytes ph a = Except.ok (ph1, out, [])) :
    decompBytes ph (a ++ b) =
      (decompBytes ph1 b).map (fun r => (r.1, out ++ r.2.1, r.2.2)) := by
  induction a generalizing ph out with
  | nil =>
    rw [decompBytes_nil] at h
    simp only [Except.ok.injEq, Prod.mk.injEq] at h
    obtain ⟨h1, h2, -⟩ := h
    subst h1
    subst h2
    simp only [List.nil_append]
    cases hb : decompBytes ph b with
    | error e => simp [Except.map, hb]
    | ok v => simp [Except.map, hb]
  | cons x rest ih =>
    cases ph with
    | magic1 =>
      by_cases hx : x = 31 <;>
        simp only [List.cons_append, List.append_eq, decompBytes, hx, if_true, if_false, reduceIte] at h ⊢
      · exact ih h
      · exact absurd h (by simp)
    | magic2 =>
      by_cases hx : x = 139 <;>
        simp only [List.cons_append, List.append_eq, decompBytes, hx, if_true, if_false, reduceIte] at h ⊢
      · exact ih h
      · exact absurd h (by simp)
    | lenByte =>
      simp only [List.cons_append, List.append_eq, decompBytes] at h ⊢
      exact ih h
    | body k =>
      simp only [List.cons_append, List.append_eq, decompBytes] at h ⊢
      cases hr : decompBytes (if k = 1 then Phase.done else Phase.body (k - 1)) rest with
      | error e' =>
        rw [hr] at h
        simp [Except.map] at h
      | ok r =>
        obtain ⟨p2, o2, e2⟩ := r
        rw [hr] at h
        simp only [Except.map, Except.ok.injEq, Prod.mk.injEq] at h
        obtain ⟨rfl, rfl, rfl⟩ := h
        rw [ih hr]
        cases hb : decompBytes p2 b <;> simp [Except.map, hb]
    | done =>
      rw [decompBytes_done] at h
      simp at h
  
theorem decompBytes_append_tail {ph ph1 : Phase} {a out extra : List Nat}
    (b : List Nat) (h : decompBytes ph a = Except.ok (ph1, out, extra)) (hne : extra ≠ []) :
    ph1 = Phase.done ∧
      decompBytes ph (a ++ b) = Except.ok (Phase.done, out, extra ++ b) := by
  induction a generalizing ph out with
  | nil =>
    rw [decompBytes_nil] at h
    simp only [Except.ok.injEq, Prod.mk.injEq] at h
    obtain ⟨-, -, h3⟩ := h
    exact absurd h3.symm hne
  | cons x rest ih =>
    cases ph with
    | magic1 =>
      by_cases hx : x = 31 <;>
        simp only [List.cons_append, List.append_eq, decompBytes, hx, if_true, if_false, reduceIte] at h ⊢
      · exact ih h
      · exact absurd h (by simp)
    | magic2 =>
      by_cases hx : x = 139 <;>
        simp only [List.cons_append, List.append_eq, decompBytes, hx, if_true, if_false, reduceIte] at h ⊢
      · exact ih h
      · exact absurd h (by simp)
    | lenByte =>
      simp only [List.cons_append, List.append_eq, decompBytes] at h ⊢
      exact ih h
    | body k =>
      simp only [List.cons_append, List.append_eq, decompBytes] at h ⊢
      cases hr : decompBytes (if k = 1 then Phase.done else Phase.body (k - 1)) rest with
      | error e' =>
        rw [hr] at h
        simp [Except.map] at h
      | ok r =>
        obtain ⟨p2, o2, e2⟩ := r
        rw [hr] at h
        simp only [Except.map, Except.ok.injEq, Prod.mk.injEq] at h
        obtain ⟨rfl, rfl, rfl⟩ := h
        obtain ⟨hdone, heq⟩ := ih hr
        refine ⟨hdone, ?_⟩
        rw [heq]
        rfl
    | done =>
      rw [decompBytes_done] at h
      simp only [Except.ok.injEq, Prod.mk.injEq] at h
      obtain ⟨rfl, rfl, rfl⟩ := h
      exact ⟨rfl, by rw [decompBytes_done]⟩

theorem decompBytes_length {ph ph1 : Phase} {l out extra : List Nat}
    (h : decompBytes ph l = Except.ok (ph1, out, extra)) :
    out.length + extra.length ≤ l.length := by
  induction l generalizing ph ph1 out extra with
  | nil =>
    rw [decompBytes_nil] at h
    simp only [Except.ok.injEq, Prod.mk.injEq] at h
    obtain ⟨-, h2, h3⟩ := h
    simp [← h2, ← h3]
  | cons x rest ih =>
    cases ph with
    | magic1 =>
      by_cases hx : x = 31 <;>
        simp only [decompBytes, hx, if_true, if_false, reduceIte] at h
      · have := ih h; simp [List.length_cons]; omega
      · exact absurd h (by simp)
    | magic2 =>
      by_cases hx : x = 139 <;>
        simp only [decompBytes, hx, if_true, if_false, reduceIte] at h
      · have := ih h; simp [List.length_cons]; omega
      · exact absurd h (by simp)
    | lenByte =>
      simp only [decompBytes] at h
      have := ih h; simp [List.length_cons]; omega
    | body k =>
      simp only [decompBytes] at h
      cases hr : decompBytes (if k = 1 then Phase.done else Phase.body (k - 1)) rest with
      | error e' =>
        rw [hr] at h
        simp [Except.map] at h
      | ok r =>
        obtain ⟨p2, o2, e2⟩ := r
        rw [hr] at h
        simp only [Except.map, Except.ok.injEq, Prod.mk.injEq] at h
        obtain ⟨-, h2, h3⟩ := h
        have := ih hr
        simp [← h2, ← h3, List.length_cons]
        omega
    | done =>
      rw [decompBytes_done] at h
      simp only [Except.ok.injEq, Prod.mk.injEq] at h
      obtain ⟨-, h2, h3⟩ := h
      simp [← h2, ← h3]

theorem decompBytes_extra_lt {ph ph1 : Phase} {l out extra : List Nat}
    (hph : ph ≠ Phase.done) (h : decompBytes ph l = Except.ok (ph1, out, extra))
    (hne : extra ≠ []) : extra.length < l.length := by
  induction l generalizing ph ph1 out extra with
  | nil =>
    rw [decompBytes_nil] at h
    simp only [Except.ok.injEq, Prod.mk.injEq] at h
    obtain ⟨-, -, h3⟩ := h
    exact absurd h3.symm hne
  | cons x rest ih =>
    cases ph with
    | magic1 =>
      by_cases hx : x = 31 <;>
        simp only [decompBytes, hx, if_true, if_false, reduceIte] at h
      · have := ih (by intro hc; cases hc) h hne
        simp [List.length_cons]; omega
      · exact absurd h (by simp)
    | magic2 =>
      by_cases hx : x = 139 <;>
        simp only [decompBytes, hx, if_true, if_false, reduceIte] at h
      · have := ih (by intro hc; cases hc) h hne
        simp [List.length_cons]; omega
      · exact absurd h (by simp)
    | lenByte =>
      simp only [decompBytes] at h
      by_cases hx : x = 0
      · rw [if_pos hx, decompBytes_done] at h
        simp only [Except.ok.injEq, Prod.mk.injEq] at h
        obtain ⟨-, -, h3⟩ := h
        simp [← h3, List.length_cons]
      · rw [if_neg hx] at h
        have := ih (by intro hc; cases hc) h hne
        simp [List.length_cons]; omega
    | body k =>
      simp only [decompBytes] at h
      cases hr : decompBytes (if k = 1 then Phase.done else Phase.body (k - 1)) rest with
      | error e' =>
        rw [hr] at h
        simp [Except.map] at h
      | ok r =>
        obtain ⟨p2, o2, e2⟩ := r
        rw [hr] at h
        simp only [Except.map, Except.ok.injEq, Prod.mk.injEq] at h
        obtain ⟨-, -, h3⟩ := h
        subst h3
        by_cases hk : k = 1
        · rw [if_pos hk, decompBytes_done] at hr
          simp only [Except.ok.injEq, Prod.mk.injEq] at hr
          obtain ⟨-, -, h3⟩ := hr
          simp [← h3, List.length_cons]
        · rw [if_neg hk] at hr
          have := ih (by intro hc; cases hc) hr hne
          simp [List.length_cons]; omega
    | done => exact absurd rfl hph

theorem decompBytes_body_exact {p : List Nat} (r : List Nat) (hp : p ≠ []) :
    decompBytes (Phase.body p.length) (p ++ r) = Except.ok (Phase.done, p, r) := by
  induction p with
  | nil => exact absurd rfl hp
  | cons x rest ih =>
    cases rest with
    | nil =>
      simp [decompBytes, decompBytes_done, Except.map]
    | cons y rest2 =>
      show decompBytes (Phase.body ((y :: rest2).length + 1)) (x :: ((y :: rest2) ++ r)) = _
      rw [decompBytes_body_cons]
      rw [if_neg (by simp only [List.length_cons]; omega)]
      rw [Nat.add_sub_cancel]
      rw [ih (by simp)]
      rfl

theorem decompBytes_member (p r : List Nat) :
    decompBytes Phase.magic1 (encodeMember p ++ r) = Except.ok (Phase.done, p, r) := by
  by_cases hp : p = []
  · subst hp
    simp [encodeMember, decompBytes, decompBytes_done]
  · show decompBytes Phase.magic1 ((31 :: 139 :: p.length :: p) ++ r) = _
    simp only [List.cons_append, decompBytes, if_true, reduceIte]
    rw [if_neg (by simpa using hp)]
    exact decompBytes_body_exact r hp

/-! ### The multi-member decode relation -/

theorem Yields.ok_decompBytes {ph : Phase} {l out : List Nat}
    (h : Yields ph l out) : ∃ x, decompBytes ph l = Except.ok x := by
  cases h with
  | last ph input ph1 out h1 => exact ⟨_, h1⟩
  | step ph input ph1 out extra out2 h1 h2 h3 => exact ⟨_, h1⟩

theorem Yields.nil_out {ph : Phase} {out : List Nat}
    (h : Yields ph [] out) : out = [] := by
  cases h with
  | last _ _ _ _ h1 =>
    rw [decompBytes_nil] at h1
    simp only [Except.ok.injEq, Prod.mk.injEq] at h1
    exact h1.2.1.symm
  | step _ _ _ _ _ _ h1 h2 =>
    rw [decompBytes_nil] at h1
    simp only [Except.ok.injEq, Prod.mk.injEq] at h1
    exact absurd h1.2.2.symm h2

theorem Yields.split {ph ph1 : Phase} {a b r o e : List Nat}
    (h : Yields ph (a ++ b) r) (ha : decompBytes ph a = Except.ok (ph1, o, e)) :
    ∃ r2, r = o ++ r2 ∧
      ((e = [] ∧ Yields ph1 b r2) ∨
       (e ≠ [] ∧ Yields Phase.magic1 (e ++ b) r2)) := by
  by_cases he : e = []
  · subst he
    have happ := decompBytes_append_nil b ha
    cases h with
    | last _ _ PH R h1 =>
      rw [happ] at h1
      cases hb : decompBytes ph1 b with
      | error e' => rw [hb] at h1; simp [Except.map] at h1
      | ok rr =>
        obtain ⟨p2, o2, e2⟩ := rr
        rw [hb] at h1
        simp only [Except.map, Except.ok.injEq, Prod.mk.injEq] at h1
        obtain ⟨-, h2, h3⟩ := h1
        refine ⟨o2, h2.symm, Or.inl ⟨rfl, ?_⟩⟩
        rw [h3] at hb
        exact Yields.last _ _ _ _ hb
    | step _ _ PH O E O2 h1 h2 h3 =>
      rw [happ] at h1
      cases hb : decompBytes ph1 b with
      | error e' => rw [hb] at h1; simp [Except.map] at h1
      | ok rr =>
        obtain ⟨p2, o2, e2⟩ := rr
        rw [hb] at h1
        simp only [Except.map, Except.ok.injEq, Prod.mk.injEq] at h1
        obtain ⟨-, h4, h5⟩ := h1
        subst h5
        refine ⟨o2 ++ O2, by rw [← h4, List.append_assoc], Or.inl ⟨rfl, ?_⟩⟩
        exact Yields.step _ _ _ _ _ _ hb h2 h3
  · obtain ⟨hdone, happ⟩ := decompBytes_append_tail b ha he
    cases h with
    | last _ _ PH R h1 =>
      rw [happ] at h1
      simp only [Except.ok.injEq, Prod.mk.injEq] at h1
      obtain ⟨-, -, h3⟩ := h1
      exact absurd h3.symm (by simp [he])
    | step _ _ PH O E O2 h1 h2 h3 =>
      rw [happ] at h1
      simp only [Except.ok.injEq, Prod.mk.injEq] at h1
      obtain ⟨-, h4, h5⟩ := h1
      subst h4
      rw [← h5] at h3
      exact ⟨O2, rfl, Or.inr ⟨he, h3⟩⟩

theorem yields_members (ps : List (List Nat)) :
    Yields Phase.magic1 (List.map encodeMember ps).flatten ps.flatten := by
  induction ps with
  | nil =>
    exact Yields.last _ _ _ _ (decompBytes_nil _)
  | cons p tl ih =>
    rw [List.map_cons, List.flatten_cons, List.flatten_cons]
    cases tl with
    | nil =>
      rw [List.map_nil, List.flatten_nil, List.append_nil, List.append_nil]
      exact Yields.last _ _ _ _ (by simpa using decompBytes_member p [])
    | cons q tl2 =>
      have hne : (List.map encodeMember (q :: tl2)).flatten ≠ [] := by
        rw [List.map_cons, List.flatten_cons]
        simp [encodeMember]
      exact Yields.step _ _ _ _ _ _ (decompBytes_member p _) hne ih

end TransparentUnzipModel

namespace TransparentUnzipModel

/-! ### Helper list lemmas -/

theorem length_take_add_drop (cs : Nat) (l : List Nat) :
    (l.take cs).length + (l.drop cs).length = l.length := by
  rw [← List.length_append, List.take_append_drop]

theorem drop_of_take_nil {n : Nat} {l : List Nat} (h : l.take n = []) : l.drop n = l := by
  cases n with
  | zero => simp
  | succ m =>
    cases l with
    | nil => simp
    | cons x t => simp at h

theorem take_append_of_le {n : Nat} {a : List Nat} (b : List Nat) (h : n ≤ a.length) :
    (a ++ b).take n = a.take n := by
  rw [List.take_append_eq_append_take]
  have : n - a.length = 0 := by omega
  rw [this]
  simp

theorem drop_append_of_le {n : Nat} {a : List Nat} (b : List Nat) (h : n ≤ a.length) :
    (a ++ b).drop n = a.drop n ++ b := by
  rw [List.drop_append_eq_append_drop]
  have : n - a.length = 0 := by omega
  rw [this]
  simp

/-! ### The measure decreases at every productive refill -/

theorem mu_core (st : List Nat) (dec : Option Decompressor) (hr : Option Bool)
    (buf : List Nat) (cb ub : Nat) :
    mu ⟨st, dec, hr, buf, cb, ub⟩ = mu ⟨st, dec, hr, [], 0, 0⟩ := rfl

theorem mu_decrease {cs : Nat} {s s' : TransparentUnzip}
    (h : buffer_chunk cs s = Except.ok (s', true)) : mu s' < mu s := by
  obtain ⟨st, dec, hr, buf, cb, ub⟩ := s
  have hlen := length_take_add_drop cs st
  simp only [List.length_drop] at hlen
  cases dec with
  | none =>
    simp only [buffer_chunk, stepInput, readChunk, flushOut] at h
    by_cases hc : st.take cs = []
    · rw [if_pos hc] at h
      simp at h
    · rw [if_neg hc] at h
      have hc1 : 0 < (st.take cs).length := List.length_pos.mpr hc
      cases hr with
      | none => simp at h
      | some b =>
        cases b with
        | true => simp at h
        | false =>
          simp only [Except.ok.injEq, Prod.mk.injEq] at h
          obtain ⟨h1, -⟩ := h
          subst h1
          simp only [mu, unusedLen, decAlive, List.length_drop]
          omega
  | some d =>
    by_cases hu : d.unused_data = []
    · simp only [buffer_chunk, stepInput, readChunk, flushOut] at h
      rw [if_pos hu] at h
      by_cases hc : st.take cs = []
      · rw [if_pos hc] at h
        cases hr with
        | none => simp at h
        | some b =>
          cases b with
          | false => simp at h
          | true =>
            simp only [Except.ok.injEq, Prod.mk.injEq] at h
            obtain ⟨h1, -⟩ := h
            subst h1
            simp only [mu, unusedLen, decAlive, List.length_drop,
              drop_of_take_nil hc, hu, List.length_nil]
            omega
      · rw [if_neg hc] at h
        have hc1 : 0 < (st.take cs).length := List.length_pos.mpr hc
        cases hr with
        | none =>
          simp only [decompress] at h
          cases hdb : decompBytes d.phase (st.take cs) with
          | error e =>
            rw [hdb] at h
            simp only [Except.ok.injEq, Prod.mk.injEq] at h
            obtain ⟨h1, -⟩ := h
            subst h1
            simp only [mu, unusedLen, decAlive, List.length_drop, hu, List.length_nil]
            omega
          | ok r =>
            obtain ⟨ph2, out, extra⟩ := r
            rw [hdb] at h
            simp only [Except.ok.injEq, Prod.mk.injEq] at h
            obtain ⟨h1, -⟩ := h
            subst h1
            have hb := decompBytes_length hdb
            simp only [mu, unusedLen, decAlive, List.length_drop, hu,
              List.nil_append, List.length_nil]
            omega
        | some b =>
          cases b with
          | false =>
            simp only [Except.ok.injEq, Prod.mk.injEq] at h
            obtain ⟨h1, -⟩ := h
            subst h1
            simp only [mu, unusedLen, decAlive, List.length_drop, hu, List.length_nil]
            omega
          | true =>
            simp only [decompress] at h
            cases hdb : decompBytes d.phase (st.take cs) with
            | error e => rw [hdb] at h; simp at h
            | ok r =>
              obtain ⟨ph2, out, extra⟩ := r
              rw [hdb] at h
              simp only [Except.ok.injEq, Prod.mk.injEq] at h
              obtain ⟨h1, -⟩ := h
              subst h1
              have hb := decompBytes_length hdb
              simp only [mu, unusedLen, decAlive, List.length_drop, hu,
                List.nil_append, List.length_nil]
              omega
    · have hu1 : 0 < d.unused_data.length := List.length_pos.mpr hu
      simp only [buffer_chunk, stepInput, readChunk, flushOut] at h
      rw [if_neg hu] at h
      rw [if_neg hu] at h
      cases hr with
      | none =>
        simp only [decompress, freshDecompressor] at h
        cases hdb : decompBytes Phase.magic1 d.unused_data with
        | error e =>
          rw [hdb] at h
          simp only [Except.ok.injEq, Prod.mk.injEq] at h
          obtain ⟨h1, -⟩ := h
          subst h1
          simp only [mu, unusedLen, decAlive, List.length_nil]
          omega
        | ok r =>
          obtain ⟨ph2, out, extra⟩ := r
          rw [hdb] at h
          simp only [Except.ok.injEq, Prod.mk.injEq] at h
          obtain ⟨h1, -⟩ := h
          subst h1
          have hex : extra.length < d.unused_data.length := by
            by_cases hx : extra = []
            · subst hx; simpa using hu1
            · exact decompBytes_extra_lt (by intro hc; cases hc) hdb hx
          simp only [mu, unusedLen, decAlive, List.nil_append]
          omega
      | some b =>
        cases b with
        | false =>
          simp only [Except.ok.injEq, Prod.mk.injEq] at h
          obtain ⟨h1, -⟩ := h
          subst h1
          simp only [mu, unusedLen, decAlive, freshDecompressor, List.length_nil]
          omega
        | true =>
          simp only [decompress, freshDecompressor] at h
          cases hdb : decompBytes Phase.magic1 d.unused_data with
          | error e => rw [hdb] at h; simp at h
          | ok r =>
            obtain ⟨ph2, out, extra⟩ := r
            rw [hdb] at h
            simp only [Except.ok.injEq, Prod.mk.injEq] at h
            obtain ⟨h1, -⟩ := h
            subst h1
            have hex : extra.length < d.unused_data.length := by
              by_cases hx : extra = []
              · subst hx; simpa using hu1
              · exact decompBytes_extra_lt (by intro hc; cases hc) hdb hx
            simp only [mu, unusedLen, decAlive, List.nil_append]
            omega

end TransparentUnzipModel

namespace TransparentUnzipModel

/-! ### Fuel irrelevance and unfolding for `future` -/

theorem futureF_irrel (cs : Nat) : ∀ (n : Nat) (s : TransparentUnzip), mu s ≤ n →
    ∀ f1 f2, mu s < f1 → mu s < f2 → futureF cs f1 s = futureF cs f2 s := by
  intro n
  induction n with
  | zero =>
    intro s hle f1 f2 h1 h2
    match f1, f2, h1, h2 with
    | a + 1, b + 1, h1, h2 =>
      simp only [futureF]
      cases hbc : buffer_chunk cs s with
      | error e => rfl
      | ok r =>
        obtain ⟨s', fl⟩ := r
        cases fl with
        | false => rfl
        | true => exact absurd (mu_decrease hbc) (by omega)
  | succ m ih =>
    intro s hle f1 f2 h1 h2
    match f1, f2, h1, h2 with
    | a + 1, b + 1, h1, h2 =>
      simp only [futureF]
      cases hbc : buffer_chunk cs s with
      | error e => rfl
      | ok r =>
        obtain ⟨s', fl⟩ := r
        cases fl with
        | false => rfl
        | true =>
          have hlt := mu_decrease hbc
          exact ih s' (by omega) a b (by omega) (by omega)

theorem future_unfold (cs : Nat) (s : TransparentUnzip) :
    future cs s =
      match buffer_chunk cs s with
      | Except.error e => Except.error e
      | Except.ok (s', true) => future cs s'
      | Except.ok (s', false) => Except.ok s'.buffer := by
  show futureF cs (mu s + 1) s = _
  simp only [futureF]
  cases hbc : buffer_chunk cs s with
  | error e => rfl
  | ok r =>
    obtain ⟨s', fl⟩ := r
    cases fl with
    | false => rfl
    | true =>
      have hlt := mu_decrease hbc
      exact futureF_irrel cs (mu s') s' le_rfl (mu s) (mu s' + 1) hlt (Nat.lt_succ_self _)

/-! ### The unproductive refill leaves the state unchanged -/

theorem bc_false_state {cs : Nat} {s s' : TransparentUnzip}
    (h : buffer_chunk cs s = Except.ok (s', false)) :
    s' = s ∧ s.stream.take cs = [] ∧
      (∀ d, s.decompressor = some d → d.unused_data = []) ∧
      (s.decompressor = none ∨ s.header_read ≠ some true) := by
  obtain ⟨st, dec, hr, buf, cb, ub⟩ := s
  cases dec with
  | none =>
    simp only [buffer_chunk, stepInput, readChunk, flushOut] at h
    by_cases hc : st.take cs = []
    · rw [if_pos hc] at h
      simp only [Except.ok.injEq, Prod.mk.injEq] at h
      obtain ⟨h1, -⟩ := h
      subst h1
      refine ⟨?_, hc, by simp, Or.inl rfl⟩
      simp [drop_of_take_nil hc, hc]
    · rw [if_neg hc] at h
      cases hr with
      | none => simp at h
      | some b => cases b <;> simp at h
  | some d =>
    by_cases hu : d.unused_data = []
    · simp only [buffer_chunk, stepInput, readChunk, flushOut] at h
      rw [if_pos hu] at h
      by_cases hc : st.take cs = []
      · rw [if_pos hc] at h
        cases hr with
        | none =>
          simp only [Except.ok.injEq, Prod.mk.injEq] at h
          obtain ⟨h1, -⟩ := h
          subst h1
          refine ⟨?_, hc, by intro d' hd'; cases hd'; exact hu, Or.inr (by simp)⟩
          simp [drop_of_take_nil hc, hc]
        | some b =>
          cases b with
          | true => simp at h
          | false =>
            simp only [Except.ok.injEq, Prod.mk.injEq] at h
            obtain ⟨h1, -⟩ := h
            subst h1
            refine ⟨?_, hc, by intro d' hd'; cases hd'; exact hu, Or.inr (by simp)⟩
            simp [drop_of_take_nil hc, hc]
      · rw [if_neg hc] at h
        cases hr with
        | none =>
          simp only [decompress] at h
          cases hdb : decompBytes d.phase (st.take cs) with
          | error e => rw [hdb] at h; simp at h
          | ok r => obtain ⟨ph2, out, extra⟩ := r; rw [hdb] at h; simp at h
        | some b =>
          cases b with
          | false => simp at h
          | true =>
            simp only [decompress] at h
            cases hdb : decompBytes d.phase (st.take cs) with
            | error e => rw [hdb] at h; simp at h
            | ok r => obtain ⟨ph2, out, extra⟩ := r; rw [hdb] at h; simp at h
    · simp only [buffer_chunk, stepInput, readChunk, flushOut] at h
      rw [if_neg hu, if_neg hu] at h
      cases hr with
      | none =>
        simp only [decompress, freshDecompressor] at h
        cases hdb : decompBytes Phase.magic1 d.unused_data with
        | error e => rw [hdb] at h; simp at h
        | ok r => obtain ⟨ph2, out, extra⟩ := r; rw [hdb] at h; simp at h
      | some b =>
        cases b with
        | false => simp at h
        | true =>
          simp only [decompress, freshDecompressor] at h
          cases hdb : decompBytes Phase.magic1 d.unused_data with
          | error e => rw [hdb] at h; simp at h
          | ok r => obtain ⟨ph2, out, extra⟩ := r; rw [hdb] at h; simp at h

theorem take_nil_cases {n : Nat} {l : List Nat} (h : l.take n = []) : n = 0 ∨ l = [] := by
  cases n with
  | zero => exact Or.inl rfl
  | succ m =>
    cases l with
    | nil => exact Or.inr rfl
    | cons x t => simp at h

theorem bc_false_intro {cs : Nat} {s : TransparentUnzip}
    (h1 : s.stream.take cs = [])
    (h2 : ∀ d, s.decompressor = some d → d.unused_data = [])
    (h3 : s.decompressor = none ∨ s.header_read ≠ some true) :
    buffer_chunk cs s = Except.ok (s, false) := by
  obtain ⟨st, dec, hr, buf, cb, ub⟩ := s
  have h1' : st.take cs = [] := h1
  cases dec with
  | none =>
    simp only [buffer_chunk, stepInput, readChunk, flushOut]
    rw [if_pos h1']
    cases hr with
    | none => simp [drop_of_take_nil h1', take_nil_cases h1']
    | some b => cases b <;> simp [drop_of_take_nil h1', take_nil_cases h1']
  | some d =>
    have hu : d.unused_data = [] := h2 d rfl
    have hhr : hr ≠ some true := by
      rcases h3 with h3 | h3
      · exact absurd h3 (by simp)
      · simpa using h3
    simp only [buffer_chunk, stepInput, readChunk, flushOut]
    rw [if_pos hu, if_pos h1']
    cases hr with
    | none => simp [drop_of_take_nil h1', take_nil_cases h1']
    | some b =>
      cases b with
      | false => simp [drop_of_take_nil h1', take_nil_cases h1']
      | true => exact absurd rfl hhr

end TransparentUnzipModel

namespace TransparentUnzipModel

/-! ### Refills act on the buffer and counters only by appending -/

theorem bc_split (cs : Nat) (st : List Nat) (dec : Option Decompressor)
    (hr : Option Bool) (buf : List Nat) (cb ub : Nat) :
    buffer_chunk cs ⟨st, dec, hr, buf, cb, ub⟩ =
      (buffer_chunk cs ⟨st, dec, hr, [], 0, 0⟩).map
        (fun r => (⟨r.1.stream, r.1.decompressor, r.1.header_read,
                    buf ++ r.1.buffer, cb + r.1.compressed_bytes, ub⟩, r.2)) := by
  cases dec with
  | none =>
    simp only [buffer_chunk, stepInput, readChunk, flushOut]
    by_cases hc : st.take cs = []
    · rw [if_pos hc, if_pos hc]
      cases hr with
      | none => simp [Except.map]
      | some b => cases b <;> simp [Except.map]
    · rw [if_neg hc, if_neg hc]
      cases hr with
      | none => simp [Except.map]
      | some b => cases b <;> simp [Except.map]
  | some d =>
    by_cases hu : d.unused_data = []
    · simp only [buffer_chunk, stepInput, readChunk, flushOut]
      rw [if_pos hu, if_pos hu]
      by_cases hc : st.take cs = []
      · rw [if_pos hc, if_pos hc]
        cases hr with
        | none => simp [Except.map]
        | some b => cases b <;> simp [Except.map]
      · rw [if_neg hc, if_neg hc]
        cases hr with
        | none =>
          simp only [decompress]
          cases hdb : decompBytes d.phase (st.take cs) with
          | error e => simp [Except.map]
          | ok r => obtain ⟨ph2, out, extra⟩ := r; simp [Except.map]
        | some b =>
          cases b with
          | false => simp [Except.map]
          | true =>
            simp only [decompress]
            cases hdb : decompBytes d.phase (st.take cs) with
            | error e => simp [Except.map]
            | ok r => obtain ⟨ph2, out, extra⟩ := r; simp [Except.map]
    · simp only [buffer_chunk, stepInput, readChunk, flushOut]
      rw [if_neg hu, if_neg hu, if_neg hu, if_neg hu]
      cases hr with
      | none =>
        simp only [decompress, freshDecompressor]
        cases hdb : decompBytes Phase.magic1 d.unused_data with
        | error e => simp [Except.map]
        | ok r => obtain ⟨ph2, out, extra⟩ := r; simp [Except.map]
      | some b =>
        cases b with
        | false => simp [Except.map]
        | true =>
          simp only [decompress, freshDecompressor]
          cases hdb : decompBytes Phase.magic1 d.unused_data with
          | error e => simp [Except.map]
          | ok r => obtain ⟨ph2, out, extra⟩ := r; simp [Except.map]

theorem future_split (cs : Nat) : ∀ (n : Nat) (s : TransparentUnzip), mu s ≤ n →
    future cs s =
      (future cs ⟨s.stream, s.decompressor, s.header_read, [], 0, 0⟩).map
        (fun out => s.buffer ++ out) := by
  intro n
  induction n with
  | zero =>
    intro s hle
    obtain ⟨st, dec, hr, buf, cb, ub⟩ := s
    rw [future_unfold, future_unfold]
    rw [bc_split cs st dec hr buf cb ub]
    cases hbc : buffer_chunk cs ⟨st, dec, hr, [], 0, 0⟩ with
    | error e => rfl
    | ok r =>
      obtain ⟨c, fl⟩ := r
      cases fl with
      | false => simp [Except.map]
      | true =>
        have hlt := mu_decrease hbc
        rw [mu_core st dec hr buf cb ub] at hle
        exact absurd hlt (by omega)
  | succ m ih =>
    intro s hle
    obtain ⟨st, dec, hr, buf, cb, ub⟩ := s
    rw [future_unfold, future_unfold]
    rw [bc_split cs st dec hr buf cb ub]
    cases hbc : buffer_chunk cs ⟨st, dec, hr, [], 0, 0⟩ with
    | error e => rfl
    | ok r =>
      obtain ⟨c, fl⟩ := r
      cases fl with
      | false => simp [Except.map]
      | true =>
        simp only [Except.map]
        have hlt := mu_decrease hbc
        rw [mu_core st dec hr buf cb ub] at hle
        obtain ⟨cst, cdec, chr, cbuf, ccb, cub⟩ := c
        have hmc : mu ⟨cst, cdec, chr, cbuf, ccb, cub⟩ = mu ⟨cst, cdec, chr, [], 0, 0⟩ :=
          mu_core cst cdec chr cbuf ccb cub
        have h1 := ih ⟨cst, cdec, chr, buf ++ cbuf, cb + ccb, ub⟩ (by rw [mu_core]; omega)
        have h2 := ih ⟨cst, cdec, chr, cbuf, ccb, cub⟩ (by rw [mu_core]; omega)
        simp only at h1 h2
        rw [h1, h2]
        cases hf : future cs ⟨cst, cdec, chr, [], 0, 0⟩ with
        | error e => rfl
        | ok out => simp [Except.map, List.append_assoc]

end TransparentUnzipModel

namespace TransparentUnzipModel

/-! ### Branch equations for `buffer_chunk` -/

theorem bc_flush {cs : Nat} {st : List Nat} {d : Decompressor} {buf : List Nat}
    {cb ub : Nat} (hc : st.take cs = []) (hu : d.unused_data = []) :
    buffer_chunk cs ⟨st, some d, some true, buf, cb, ub⟩ =
      Except.ok (⟨st, none, some true, buf, cb, ub⟩, true) := by
  simp only [buffer_chunk, stepInput, readChunk, flushOut]
  rw [if_pos hu, if_pos hc]
  simp [drop_of_take_nil hc, hc]

theorem bc_detect_ok {cs : Nat} {st : List Nat} {d d2 : Decompressor}
    {out buf : List Nat} {cb ub : Nat} (hu : d.unused_data = [])
    (hc : st.take cs ≠ []) (hd : decompress d (st.take cs) = Except.ok (d2, out)) :
    buffer_chunk cs ⟨st, some d, none, buf, cb, ub⟩ =
      Except.ok (⟨st.drop cs, some d2, some true, buf ++ out,
        cb + (st.take cs).length, ub⟩, true) := by
  simp only [buffer_chunk, stepInput, readChunk, flushOut]
  rw [if_pos hu, if_neg hc]
  dsimp only
  rw [hd]

theorem bc_detect_err {cs : Nat} {st : List Nat} {d : Decompressor}
    {buf : List Nat} {cb ub : Nat} (hu : d.unused_data = [])
    (hc : st.take cs ≠ []) (hd : decompress d (st.take cs) = Except.error ()) :
    buffer_chunk cs ⟨st, some d, none, buf, cb, ub⟩ =
      Except.ok (⟨st.drop cs, some d, some false, buf ++ st.take cs,
        cb + (st.take cs).length, ub⟩, true) := by
  simp only [buffer_chunk, stepInput, readChunk, flushOut]
  rw [if_pos hu, if_neg hc]
  dsimp only
  rw [hd]

theorem bc_decode_ok {cs : Nat} {st : List Nat} {d d2 : Decompressor}
    {out buf : List Nat} {cb ub : Nat} (hu : d.unused_data = [])
    (hc : st.take cs ≠ []) (hd : decompress d (st.take cs) = Except.ok (d2, out)) :
    buffer_chunk cs ⟨st, some d, some true, buf, cb, ub⟩ =
      Except.ok (⟨st.drop cs, some d2, some true, buf ++ out,
        cb + (st.take cs).length, ub⟩, true) := by
  simp only [buffer_chunk, stepInput, readChunk, flushOut]
  rw [if_pos hu, if_neg hc]
  dsimp only
  rw [hd]

theorem bc_raw_some {cs : Nat} {st : List Nat} {d : Decompressor}
    {buf : List Nat} {cb ub : Nat} (hu : d.unused_data = []) (hc : st.take cs ≠ []) :
    buffer_chunk cs ⟨st, some d, some false, buf, cb, ub⟩ =
      Except.ok (⟨st.drop cs, some d, some false, buf ++ st.take cs,
        cb + (st.take cs).length, ub⟩, true) := by
  simp only [buffer_chunk, stepInput, readChunk, flushOut]
  rw [if_pos hu, if_neg hc]

theorem bc_recycle_ok {cs : Nat} {st : List Nat} {d d2 : Decompressor}
    {out buf : List Nat} {cb ub : Nat} (hu : d.unused_data ≠ [])
    (hd : decompress freshDecompressor d.unused_data = Except.ok (d2, out)) :
    buffer_chunk cs ⟨st, some d, some true, buf, cb, ub⟩ =
      Except.ok (⟨st, some d2, some true, buf ++ out, cb, ub⟩, true) := by
  simp only [buffer_chunk, stepInput, readChunk, flushOut]
  rw [if_neg hu, if_neg hu]
  dsimp only
  rw [hd]
  simp

theorem bc_recycle_err {cs : Nat} {st : List Nat} {d : Decompressor}
    {buf : List Nat} {cb ub : Nat} {e : Unit} (hu : d.unused_data ≠ [])
    (hd : decompress freshDecompressor d.unused_data = Except.error e) :
    buffer_chunk cs ⟨st, some d, some true, buf, cb, ub⟩ = Except.error e := by
  simp only [buffer_chunk, stepInput, readChunk, flushOut]
  rw [if_neg hu, if_neg hu]
  dsimp only
  rw [hd]

/-! ### Pass-through mode reproduces the raw stream -/

theorem future_pass (cs : Nat) : ∀ (n : Nat) (st buf : List Nat) (d : Decompressor)
    (cb ub : Nat), st.length ≤ n → 1 ≤ cs → d.unused_data = [] →
    future cs ⟨st, some d, some false, buf, cb, ub⟩ = Except.ok (buf ++ st) := by
  intro n
  induction n with
  | zero =>
    intro st buf d cb ub hn hcs hu
    have hst : st = [] := by
      cases st with
      | nil => rfl
      | cons x t => simp at hn
    subst hst
    rw [future_unfold]
    rw [bc_false_intro (s := ⟨[], some d, some false, buf, cb, ub⟩) (by simp)
      (by intro d' hd'; cases hd'; exact hu) (Or.inr (by simp))]
    simp
  | succ m ih =>
    intro st buf d cb ub hn hcs hu
    cases st with
    | nil =>
      rw [future_unfold]
      rw [bc_false_intro (s := ⟨[], some d, some false, buf, cb, ub⟩) (by simp)
        (by intro d' hd'; cases hd'; exact hu) (Or.inr (by simp))]
      simp
    | cons x t =>
      have hc : (x :: t).take cs ≠ [] := by
        cases cs with
        | zero => omega
        | succ k => simp
      rw [future_unfold, bc_raw_some hu hc]
      show future cs ⟨(x :: t).drop cs, some d, some false,
        buf ++ (x :: t).take cs, _, ub⟩ = _
      rw [ih ((x :: t).drop cs) (buf ++ (x :: t).take cs) d _ ub
        (by simp only [List.length_drop, List.length_cons] at hn ⊢; omega) hcs hu]
      rw [List.append_assoc, List.take_append_drop]

/-- A stream whose first chunk fails gzip decoding is passed through
verbatim, with no error surfaced. -/
theorem future_not_gzip {cs : Nat} {stream : List Nat}
    (h : decompress freshDecompressor (stream.take cs) = Except.error ()) :
    future cs (initTU stream) = Except.ok stream := by
  have hne : stream.take cs ≠ [] := by
    intro hc
    rw [hc] at h
    simp [decompress, decompBytes_nil, freshDecompressor] at h
  have hcs : 1 ≤ cs := by
    cases cs with
    | zero => simp at hne
    | succ k => omega
  rw [show initTU stream = ⟨stream, some freshDecompressor, none, [], 0, 0⟩ from rfl]
  rw [future_unfold, bc_detect_err rfl hne h]
  show future cs ⟨stream.drop cs, some freshDecompressor, some false,
    [] ++ stream.take cs, _, 0⟩ = _
  rw [future_pass cs (stream.drop cs).length (stream.drop cs)
    ([] ++ stream.take cs) freshDecompressor _ 0 le_rfl hcs rfl]
  rw [List.nil_append, List.take_append_drop]

end TransparentUnzipModel

namespace TransparentUnzipModel

/-! ### Compressed mode reproduces the members' payloads -/

theorem future_inv (cs : Nat) (hcs : 1 ≤ cs) : ∀ (n : Nat) (s : TransparentUnzip)
    (rest : List Nat), mu s ≤ n → InvC s rest →
    future cs s = Except.ok (s.buffer ++ rest) := by
  intro n
  induction n with
  | zero =>
    intro s rest hn hinv
    exfalso
    obtain ⟨st, dec, hr, buf, cb, ub⟩ := s
    obtain ⟨-, d, hdec, -⟩ := hinv
    have hdec' : dec = some d := hdec
    subst hdec'
    simp [mu, unusedLen, decAlive] at hn
  | succ m ih =>
    intro s rest hn hinv
    obtain ⟨st, dec, hr, buf, cb, ub⟩ := s
    obtain ⟨hhr, d, hdec, hcase⟩ := hinv
    have hhr' : hr = some true := hhr
    have hdec' : dec = some d := hdec
    subst hhr'
    subst hdec'
    rcases hcase with ⟨hu, hy⟩ | ⟨hu, hdone, hy⟩
    · -- no leftover data: read from the stream
      have hu' : d.unused_data = [] := hu
      have hy' : Yields d.phase st rest := hy
      by_cases hst : st = []
      · -- stream exhausted: flush, then stop
        subst hst
        have hrest : rest = [] := hy'.nil_out
        subst hrest
        rw [future_unfold, bc_flush (by simp) hu']
        show future cs ⟨[], none, some true, buf, cb, ub⟩ = _
        rw [future_unfold,
          bc_false_intro (s := ⟨[], none, some true, buf, cb, ub⟩) (by simp)
            (by intro d' hd'; cases hd') (Or.inl rfl)]
        simp
      · have hc : st.take cs ≠ [] := by
          intro htc
          rcases take_nil_cases htc with h0 | h0
          · omega
          · exact hst h0
        obtain ⟨X, hok⟩ := hy'.ok_decompBytes
        rw [← List.take_append_drop cs st] at hok hy'
        cases hdb : decompBytes d.phase (st.take cs) with
        | error e =>
          cases e
          rw [decompBytes_error_append _ hdb] at hok
          simp at hok
        | ok r =>
          obtain ⟨ph2, o2, e2⟩ := r
          have hdec2 : decompress d (st.take cs) = Except.ok (⟨ph2, e2⟩, o2) := by
            simp [decompress, hdb, hu']
          have hbc := @bc_decode_ok cs st d ⟨ph2, e2⟩ o2 buf cb ub hu' hc hdec2
          obtain ⟨rest2, hrest, hsplit⟩ := hy'.split hdb
          have hlt := mu_decrease hbc
          have hinv2 : InvC ⟨st.drop cs, some ⟨ph2, e2⟩, some true, buf ++ o2,
              cb + (st.take cs).length, ub⟩ rest2 := by
            refine ⟨rfl, ⟨ph2, e2⟩, rfl, ?_⟩
            rcases hsplit with ⟨he2, hy2⟩ | ⟨he2, hy2⟩
            · exact Or.inl ⟨he2, hy2⟩
            · exact Or.inr ⟨he2, (decompBytes_append_tail [] hdb he2).1, hy2⟩
          rw [future_unfold, hbc]
          show future cs ⟨st.drop cs, some ⟨ph2, e2⟩, some true, buf ++ o2,
            cb + (st.take cs).length, ub⟩ = _
          rw [ih _ rest2 (by omega) hinv2]
          rw [hrest]
          simp [List.append_assoc]
    · -- leftover trailing data: recycle it into a fresh decoder
      have hu' : d.unused_data ≠ [] := hu
      have hy' : Yields Phase.magic1 (d.unused_data ++ st) rest := hy
      obtain ⟨X, hok⟩ := hy'.ok_decompBytes
      cases hdb : decompBytes Phase.magic1 d.unused_data with
      | error e =>
        cases e
        rw [decompBytes_error_append _ hdb] at hok
        simp at hok
      | ok r =>
        obtain ⟨ph2, o2, e2⟩ := r
        have hdec2 : decompress freshDecompressor d.unused_data =
            Except.ok (⟨ph2, e2⟩, o2) := by
          simp [decompress, freshDecompressor, hdb]
        have hbc := @bc_recycle_ok cs st d ⟨ph2, e2⟩ o2 buf cb ub hu' hdec2
        obtain ⟨rest2, hrest, hsplit⟩ := hy'.split hdb
        have hlt := mu_decrease hbc
        have hinv2 : InvC ⟨st, some ⟨ph2, e2⟩, some true, buf ++ o2, cb, ub⟩ rest2 := by
          refine ⟨rfl, ⟨ph2, e2⟩, rfl, ?_⟩
          rcases hsplit with ⟨he2, hy2⟩ | ⟨he2, hy2⟩
          · exact Or.inl ⟨he2, hy2⟩
          · exact Or.inr ⟨he2, (decompBytes_append_tail [] hdb he2).1, hy2⟩
        rw [future_unfold, hbc]
        show future cs ⟨st, some ⟨ph2, e2⟩, some true, buf ++ o2, cb, ub⟩ = _
        rw [ih _ rest2 (by omega) hinv2]
        rw [hrest]
        simp [List.append_assoc]

theorem future_init_nil (cs : Nat) : future cs (initTU []) = Except.ok [] := by
  rw [future_unfold]
  rw [bc_false_intro (s := initTU []) (by simp [initTU])
    (by intro d hd; simp [initTU, freshDecompressor] at hd; rw [← hd])
    (Or.inr (by simp [initTU]))]
  simp [initTU]

/-- A stream of concatenated gzip members decodes to the concatenation of
the payloads, in member order. -/
theorem future_members (cs : Nat) (hcs : 1 ≤ cs) (ps : List (List Nat)) :
    future cs (initTU (List.map encodeMember ps).flatten) = Except.ok ps.flatten := by
  cases ps with
  | nil => simpa using future_init_nil cs
  | cons p tl =>
    have hy := yields_members (p :: tl)
    have hshape : (List.map encodeMember (p :: tl)).flatten =
        31 :: (139 :: p.length :: (p ++ (List.map encodeMember tl).flatten)) := by
      simp [encodeMember]
    have hne : ((List.map encodeMember (p :: tl)).flatten).take cs ≠ [] := by
      rw [hshape]
      cases cs with
      | zero => omega
      | succ k => simp
    obtain ⟨X, hok⟩ := hy.ok_decompBytes
    rw [← List.take_append_drop cs ((List.map encodeMember (p :: tl)).flatten)] at hok hy
    cases hdb : decompBytes Phase.magic1
        (((List.map encodeMember (p :: tl)).flatten).take cs) with
    | error e =>
      cases e
      rw [decompBytes_error_append _ hdb] at hok
      simp at hok
    | ok r =>
      obtain ⟨ph2, o2, e2⟩ := r
      have hdec2 : decompress freshDecompressor
          (((List.map encodeMember (p :: tl)).flatten).take cs) =
          Except.ok (⟨ph2, e2⟩, o2) := by
        simp only [decompress, freshDecompressor]
        rw [hdb]
        simp
      have hbc := @bc_detect_ok cs ((List.map encodeMember (p :: tl)).flatten)
        freshDecompressor ⟨ph2, e2⟩ o2 [] 0 0 rfl hne hdec2
      obtain ⟨rest2, hrest, hsplit⟩ := hy.split hdb
      have hinv2 : InvC ⟨((List.map encodeMember (p :: tl)).flatten).drop cs,
          some ⟨ph2, e2⟩, some true, [] ++ o2,
          0 + (((List.map encodeMember (p :: tl)).flatten).take cs).length, 0⟩ rest2 := by
        refine ⟨rfl, ⟨ph2, e2⟩, rfl, ?_⟩
        rcases hsplit with ⟨he2, hy2⟩ | ⟨he2, hy2⟩
        · exact Or.inl ⟨he2, hy2⟩
        · exact Or.inr ⟨he2, (decompBytes_append_tail [] hdb he2).1, hy2⟩
      rw [show initTU ((List.map encodeMember (p :: tl)).flatten) =
        ⟨(List.map encodeMember (p :: tl)).flatten, some freshDecompressor,
          none, [], 0, 0⟩ from rfl]
      rw [future_unfold, hbc]
      show future cs ⟨((List.map encodeMember (p :: tl)).flatten).drop cs,
        some ⟨ph2, e2⟩, some true, [] ++ o2,
        0 + (((List.map encodeMember (p :: tl)).flatten).take cs).length, 0⟩ = _
      rw [future_inv cs hcs _ _ rest2 le_rfl hinv2]
      rw [hrest]
      simp

end TransparentUnzipModel

namespace TransparentUnzipModel

/-! ### Small-step corollaries for `future` and the read loop -/

theorem future_bc_error {cs : Nat} {s : TransparentUnzip} {e : Unit}
    (h : buffer_chunk cs s = Except.error e) : future cs s = Except.error e := by
  rw [future_unfold, h]

theorem future_bc_true {cs : Nat} {s s' : TransparentUnzip}
    (h : buffer_chunk cs s = Except.ok (s', true)) : future cs s = future cs s' := by
  rw [future_unfold, h]

theorem future_bc_false {cs : Nat} {s s' : TransparentUnzip}
    (h : buffer_chunk cs s = Except.ok (s', false)) :
    future cs s = Except.ok s'.buffer := by
  rw [future_unfold, h]

theorem readLoopF_done {cs size m : Nat} {s : TransparentUnzip}
    (h : size ≤ s.buffer.length) : readLoopF cs size m s = Except.ok s := by
  cases m <;> simp [readLoopF, h]

theorem readLoopF_step {cs size m : Nat} {s s' : TransparentUnzip}
    (hsz : ¬ size ≤ s.buffer.length) (hbc : buffer_chunk cs s = Except.ok (s', true)) :
    readLoopF cs size (m + 1) s = readLoopF cs size m s' := by
  simp [readLoopF, hsz, hbc]

theorem readLoopF_stop {cs size m : Nat} {s s' : TransparentUnzip}
    (hsz : ¬ size ≤ s.buffer.length) (hbc : buffer_chunk cs s = Except.ok (s', false)) :
    readLoopF cs size (m + 1) s = Except.ok s' := by
  simp [readLoopF, hsz, hbc]

/-- Combined bookkeeping facts about one refill: the delivered-bytes
counter is untouched, the consumed-bytes counter advances by exactly the
number of bytes pulled off the stream, the stream only shrinks, a known
detection flag is preserved, and the buffer only grows by appending. -/
theorem bc_props {cs : Nat} {s s' : TransparentUnzip} {fl : Bool}
    (h : buffer_chunk cs s = Except.ok (s', fl)) :
    s'.uncompressed_bytes = s.uncompressed_bytes ∧
    s'.compressed_bytes = s.compressed_bytes + (s.stream.length - s'.stream.length) ∧
    s'.stream.length ≤ s.stream.length ∧
    (∀ b, s.header_read = some b → s'.header_read = some b) ∧
    (∃ app, s'.buffer = s.buffer ++ app) := by
  obtain ⟨st, dec, hr, buf, cb, ub⟩ := s
  have hlen := length_take_add_drop cs st
  simp only [List.length_drop] at hlen
  cases dec with
  | none =>
    simp only [buffer_chunk, stepInput, readChunk, flushOut] at h
    by_cases hc : st.take cs = []
    · rw [if_pos hc] at h
      simp only [Except.ok.injEq, Prod.mk.injEq] at h
      obtain ⟨h1, -⟩ := h
      subst h1
      refine ⟨rfl, ?_, ?_, fun b hb => hb, ⟨[], by simp⟩⟩ <;>
        simp [drop_of_take_nil hc, hc]
    · rw [if_neg hc] at h
      cases hr with
      | none => simp at h
      | some b =>
        cases b with
        | true => simp at h
        | false =>
          simp only [Except.ok.injEq, Prod.mk.injEq] at h
          obtain ⟨h1, -⟩ := h
          subst h1
          exact ⟨rfl, by simp [List.length_drop]; omega, by simp [List.length_drop],
            fun b hb => hb, ⟨st.take cs, rfl⟩⟩
  | some d =>
    by_cases hu : d.unused_data = []
    · simp only [buffer_chunk, stepInput, readChunk, flushOut] at h
      rw [if_pos hu] at h
      by_cases hc : st.take cs = []
      · rw [if_pos hc] at h
        cases hr with
        | none =>
          simp only [Except.ok.injEq, Prod.mk.injEq] at h
          obtain ⟨h1, -⟩ := h
          subst h1
          refine ⟨rfl, ?_, ?_, fun b hb => hb, ⟨[], by simp⟩⟩ <;>
            simp [drop_of_take_nil hc, hc]
        | some b =>
          cases b with
          | false =>
            simp only [Except.ok.injEq, Prod.mk.injEq] at h
            obtain ⟨h1, -⟩ := h
            subst h1
            refine ⟨rfl, ?_, ?_, fun b hb => hb, ⟨[], by simp⟩⟩ <;>
              simp [drop_of_take_nil hc, hc]
          | true =>
            simp only [Except.ok.injEq, Prod.mk.injEq] at h
            obtain ⟨h1, -⟩ := h
            subst h1
            refine ⟨rfl, ?_, ?_, fun b hb => hb, ⟨[], by simp⟩⟩ <;>
              simp [drop_of_take_nil hc, hc]
      · rw [if_neg hc] at h
        cases hr with
        | none =>
          simp only [decompress] at h
          cases hdb : decompBytes d.phase (st.take cs) with
          | error e =>
            rw [hdb] at h
            simp only [Except.ok.injEq, Prod.mk.injEq] at h
            obtain ⟨h1, -⟩ := h
            subst h1
            refine ⟨rfl, by simp [List.length_drop]; omega, by simp [List.length_drop],
              ?_, ⟨st.take cs, rfl⟩⟩
            intro b hb
            cases hb
          | ok r =>
            obtain ⟨ph2, out, extra⟩ := r
            rw [hdb] at h
            simp only [Except.ok.injEq, Prod.mk.injEq] at h
            obtain ⟨h1, -⟩ := h
            subst h1
            refine ⟨rfl, by simp [List.length_drop]; omega, by simp [List.length_drop],
              ?_, ⟨out, rfl⟩⟩
            intro b hb
            cases hb
        | some b =>
          cases b with
          | false =>
            simp only [Except.ok.injEq, Prod.mk.injEq] at h
            obtain ⟨h1, -⟩ := h
            subst h1
            exact ⟨rfl, by simp [List.length_drop]; omega, by simp [List.length_drop],
              fun b hb => hb, ⟨st.take cs, rfl⟩⟩
          | true =>
            simp only [decompress] at h
            cases hdb : decompBytes d.phase (st.take cs) with
            | error e => rw [hdb] at h; simp at h
            | ok r =>
              obtain ⟨ph2, out, extra⟩ := r
              rw [hdb] at h
              simp only [Except.ok.injEq, Prod.mk.injEq] at h
              obtain ⟨h1, -⟩ := h
              subst h1
              exact ⟨rfl, by simp [List.length_drop]; omega, by simp [List.length_drop],
                fun b hb => hb, ⟨out, rfl⟩⟩
    · simp only [buffer_chunk, stepInput, readChunk, flushOut] at h
      rw [if_neg hu, if_neg hu] at h
      cases hr with
      | none =>
        simp only [decompress, freshDecompressor] at h
        cases hdb : decompBytes Phase.magic1 d.unused_data with
        | error e =>
          rw [hdb] at h
          simp only [Except.ok.injEq, Prod.mk.injEq] at h
          obtain ⟨h1, -⟩ := h
          subst h1
          refine ⟨rfl, by simp, by simp, ?_, ⟨d.unused_data, by simp⟩⟩
          intro b hb
          cases hb
        | ok r =>
          obtain ⟨ph2, out, extra⟩ := r
          rw [hdb] at h
          simp only [Except.ok.injEq, Prod.mk.injEq] at h
          obtain ⟨h1, -⟩ := h
          subst h1
          refine ⟨rfl, by simp, by simp, ?_, ⟨out, by simp⟩⟩
          intro b hb
          cases hb
      | some b =>
        cases b with
        | false =>
          simp only [Except.ok.injEq, Prod.mk.injEq] at h
          obtain ⟨h1, -⟩ := h
          subst h1
          exact ⟨rfl, by simp, by simp, fun b hb => hb, ⟨d.unused_data, by simp⟩⟩
        | true =>
          simp only [decompress, freshDecompressor] at h
          cases hdb : decompBytes Phase.magic1 d.unused_data with
          | error e => rw [hdb] at h; simp at h
          | ok r =>
            obtain ⟨ph2, out, extra⟩ := r
            rw [hdb] at h
            simp only [Except.ok.injEq, Prod.mk.injEq] at h
            obtain ⟨h1, -⟩ := h
            subst h1
            exact ⟨rfl, by simp, by simp, fun b hb => hb, ⟨out, by simp⟩⟩

end TransparentUnzipModel

namespace TransparentUnzipModel

/-! ### The read loop -/

theorem readLoop_props (cs size : Nat) : ∀ (fuel : Nat) (s s1 : TransparentUnzip),
    readLoopF cs size fuel s = Except.ok s1 →
    s1.uncompressed_bytes = s.uncompressed_bytes ∧
    s1.compressed_bytes = s.compressed_bytes + (s.stream.length - s1.stream.length) ∧
    s1.stream.length ≤ s.stream.length ∧
    (∀ b, s.header_read = some b → s1.header_read = some b) ∧
    (size ≤ s1.buffer.length ∨ buffer_chunk cs s1 = Except.ok (s1, false)) := by
  intro fuel
  induction fuel with
  | zero =>
    intro s s1 h
    by_cases hsz : size ≤ s.buffer.length
    · rw [readLoopF_done hsz] at h
      simp only [Except.ok.injEq] at h
      subst h
      exact ⟨rfl, by simp, le_rfl, fun b hb => hb, Or.inl hsz⟩
    · simp only [readLoopF] at h
      rw [if_neg hsz] at h
      simp at h
  | succ m ih =>
    intro s s1 h
    by_cases hsz : size ≤ s.buffer.length
    · rw [readLoopF_done hsz] at h
      simp only [Except.ok.injEq] at h
      subst h
      exact ⟨rfl, by simp, le_rfl, fun b hb => hb, Or.inl hsz⟩
    · cases hbc : buffer_chunk cs s with
      | error e =>
        simp only [readLoopF] at h
        rw [if_neg hsz, hbc] at h
        simp at h
      | ok r =>
        obtain ⟨s', fl⟩ := r
        cases fl with
        | false =>
          rw [readLoopF_stop hsz hbc] at h
          simp only [Except.ok.injEq] at h
          subst h
          obtain ⟨hself, -⟩ := bc_false_state hbc
          subst hself
          exact ⟨rfl, by simp, le_rfl, fun b hb => hb, Or.inr hbc⟩
        | true =>
          rw [readLoopF_step hsz hbc] at h
          obtain ⟨hu1, hc1, hs1, hh1, hx1⟩ := ih s' s1 h
          obtain ⟨hu0, hc0, hs0, hh0, -⟩ := bc_props hbc
          exact ⟨hu1.trans hu0, by omega, hs1.trans hs0,
            fun b hb => hh1 b (hh0 b hb), hx1⟩

theorem readLoop_spec (cs size : Nat) : ∀ (fuel : Nat) (s : TransparentUnzip)
    (out : List Nat), mu s < fuel → future cs s = Except.ok out →
    ∃ s1, readLoopF cs size fuel s = Except.ok s1 ∧ future cs s1 = Except.ok out := by
  intro fuel
  induction fuel with
  | zero =>
    intro s out h1 h2
    omega
  | succ m ih =>
    intro s out h1 h2
    by_cases hsz : size ≤ s.buffer.length
    · exact ⟨s, readLoopF_done hsz, h2⟩
    · cases hbc : buffer_chunk cs s with
      | error e =>
        rw [future_bc_error hbc] at h2
        simp at h2
      | ok r =>
        obtain ⟨s', fl⟩ := r
        cases fl with
        | false =>
          obtain ⟨hself, -⟩ := bc_false_state hbc
          refine ⟨s', readLoopF_stop hsz hbc, ?_⟩
          rw [hself]
          exact h2
        | true =>
          have h2' : future cs s' = Except.ok out := (future_bc_true hbc).symm.trans h2
          have hlt := mu_decrease hbc
          obtain ⟨s1, hl, hf⟩ := ih s' out (by omega) h2'
          exact ⟨s1, (readLoopF_step hsz hbc).trans hl, hf⟩

/-- Full characterisation of one `read` call: the result is a prefix of
the buffer of the loop-end state; all the bookkeeping facts needed by the
claims. -/
theorem read_props {cs k : Nat} {s s2 : TransparentUnzip} {part : List Nat}
    (h : read cs k s = Except.ok (s2, part)) :
    part.length ≤ k ∧
    s2.uncompressed_bytes = s.uncompressed_bytes + part.length ∧
    s2.compressed_bytes = s.compressed_bytes + (s.stream.length - s2.stream.length) ∧
    s2.stream.length ≤ s.stream.length ∧
    (∀ b, s.header_read = some b → s2.header_read = some b) ∧
    (part.length < k → buffer_chunk cs s2 = Except.ok (s2, false)) ∧
    (part = [] → k = 0 ∨ (s2.buffer = [] ∧ buffer_chunk cs s2 = Except.ok (s2, false))) := by
  cases hl : readLoopF cs k (mu s + 1) s with
  | error e =>
    rw [show read cs k s = readF (mu s + 1) cs k s from rfl] at h
    simp only [readF] at h
    rw [hl] at h
    simp at h
  | ok s1 =>
    rw [show read cs k s = readF (mu s + 1) cs k s from rfl] at h
    simp only [readF] at h
    rw [hl] at h
    simp only [Except.ok.injEq, Prod.mk.injEq] at h
    obtain ⟨h1, h2⟩ := h
    obtain ⟨hu1, hc1, hs1, hh1, hexit⟩ := readLoop_props cs k (mu s + 1) s s1 hl
    subst h2
    have hst2 : s2.stream = s1.stream := by rw [← h1]
    have hdec2 : s2.decompressor = s1.decompressor := by rw [← h1]
    have hhr2 : s2.header_read = s1.header_read := by rw [← h1]
    have hbuf2 : s2.buffer = s1.buffer.drop k := by rw [← h1]
    have hub2 : s2.uncompressed_bytes =
        s1.uncompressed_bytes + (s1.buffer.take k).length := by rw [← h1]
    have hcb2 : s2.compressed_bytes = s1.compressed_bytes := by rw [← h1]
    have hplen : (s1.buffer.take k).length ≤ k := by
      simp [List.length_take]
    have hexh : buffer_chunk cs s1 = Except.ok (s1, false) →
        buffer_chunk cs s2 = Except.ok (s2, false) := by
      intro hbcf
      obtain ⟨-, ht, hun, hd⟩ := bc_false_state hbcf
      apply bc_false_intro
      · rw [hst2]; exact ht
      · rw [hdec2]; exact hun
      · rw [hdec2, hhr2]; exact hd
    refine ⟨hplen, by rw [hub2, hu1], by rw [hcb2, hst2]; exact hc1,
      by rw [hst2]; exact hs1, fun b hb => by rw [hhr2]; exact hh1 b hb, ?_, ?_⟩
    · intro hlt
      rcases hexit with hge | hbcf
      · exfalso
        rw [List.length_take] at hlt
        omega
      · exact hexh hbcf
    · intro hnil
      by_cases hk : k = 0
      · exact Or.inl hk
      · refine Or.inr ⟨?_, ?_⟩
        · have : s1.buffer = [] := by
            have := congrArg List.length hnil
            rw [List.length_take] at this
            simp only [List.length_nil] at this
            have hb0 : s1.buffer.length = 0 := by omega
            exact List.eq_nil_of_length_eq_zero hb0
          rw [hbuf2, this]
          simp
        · rcases hexit with hge | hbcf
          · exfalso
            have : s1.buffer = [] := by
              have := congrArg List.length hnil
              rw [List.length_take] at this
              simp only [List.length_nil] at this
              have hb0 : s1.buffer.length = 0 := by omega
              exact List.eq_nil_of_length_eq_zero hb0
            rw [this] at hge
            simp at hge
            omega
          · exact hexh hbcf

end TransparentUnzipModel

namespace TransparentUnzipModel

/-- One `read cs k` call removes exactly the first `k` bytes of the total
remaining output. -/
theorem read_decomp {cs k : Nat} {s : TransparentUnzip} {out : List Nat}
    (h : future cs s = Except.ok out) :
    ∃ s2, read cs k s = Except.ok (s2, out.take k) ∧
      future cs s2 = Except.ok (out.drop k) := by
  obtain ⟨s1, hl, hf⟩ := readLoop_spec cs k (mu s + 1) s out (Nat.lt_succ_self _) h
  have hread : read cs k s = Except.ok
      ({ s1 with buffer := s1.buffer.drop k,
                 uncompressed_bytes := s1.uncompressed_bytes + (s1.buffer.take k).length },
       s1.buffer.take k) := by
    rw [show read cs k s = readF (mu s + 1) cs k s from rfl]
    simp only [readF]
    rw [hl]
  obtain ⟨-, -, -, -, hexit⟩ := readLoop_props cs k (mu s + 1) s s1 hl
  rcases hexit with hge | hbcf
  · have hsplit1 := future_split cs (mu s1) s1 le_rfl
    rw [hf] at hsplit1
    cases hcore : future cs ⟨s1.stream, s1.decompressor, s1.header_read, [], 0, 0⟩ with
    | error e => rw [hcore] at hsplit1; simp [Except.map] at hsplit1
    | ok rest1 =>
      rw [hcore] at hsplit1
      simp only [Except.map, Except.ok.injEq] at hsplit1
      refine ⟨{ s1 with buffer := s1.buffer.drop k, uncompressed_bytes := s1.uncompressed_bytes + (s1.buffer.take k).length }, ?_, ?_⟩
      · rw [hread, hsplit1, take_append_of_le rest1 hge]
      · set s2 : TransparentUnzip :=
          { s1 with buffer := s1.buffer.drop k,
                    uncompressed_bytes := s1.uncompressed_bytes + (s1.buffer.take k).length }
          with hs2def
        have hsplit2 := future_split cs (mu s2) s2 le_rfl
        have hcs2 : (⟨s2.stream, s2.decompressor, s2.header_read, [], 0, 0⟩ :
            TransparentUnzip) = ⟨s1.stream, s1.decompressor, s1.header_read, [], 0, 0⟩ := rfl
        rw [hcs2, hcore] at hsplit2
        rw [hsplit2]
        simp only [Except.map]
        rw [hsplit1, drop_append_of_le rest1 hge]
  · have h3 := future_bc_false hbcf
    rw [hf] at h3
    have hout : out = s1.buffer := Except.ok.inj h3
    refine ⟨{ s1 with buffer := s1.buffer.drop k, uncompressed_bytes := s1.uncompressed_bytes + (s1.buffer.take k).length }, ?_, ?_⟩
    · rw [hread, hout]
    · set s2 : TransparentUnzip :=
        { s1 with buffer := s1.buffer.drop k,
                  uncompressed_bytes := s1.uncompressed_bytes + (s1.buffer.take k).length }
        with hs2def
      obtain ⟨-, ht, hun, hd⟩ := bc_false_state hbcf
      have hbcf2 : buffer_chunk cs s2 = Except.ok (s2, false) :=
        bc_false_intro ht hun hd
      rw [future_bc_false hbcf2, hout]

end TransparentUnzipModel

namespace TransparentUnzipModel

/-! ### The total output is bounded by the bytes still to be seen -/

theorem bc_growth {cs : Nat} {s s' : TransparentUnzip}
    (h : buffer_chunk cs s = Except.ok (s', true)) :
    s'.buffer.length + unusedLen s' + s'.stream.length ≤
      s.buffer.length + unusedLen s + s.stream.length := by
  obtain ⟨st, dec, hr, buf, cb, ub⟩ := s
  have hlen := length_take_add_drop cs st
  simp only [List.length_drop] at hlen
  cases dec with
  | none =>
    simp only [buffer_chunk, stepInput, readChunk, flushOut] at h
    by_cases hc : st.take cs = []
    · rw [if_pos hc] at h
      simp at h
    · rw [if_neg hc] at h
      cases hr with
      | none => simp at h
      | some b =>
        cases b with
        | true => simp at h
        | false =>
          simp only [Except.ok.injEq, Prod.mk.injEq] at h
          obtain ⟨h1, -⟩ := h
          subst h1
          simp only [unusedLen, List.length_drop, List.length_append]
          omega
  | some d =>
    by_cases hu : d.unused_data = []
    · simp only [buffer_chunk, stepInput, readChunk, flushOut] at h
      rw [if_pos hu] at h
      by_cases hc : st.take cs = []
      · rw [if_pos hc] at h
        cases hr with
        | none => simp at h
        | some b =>
          cases b with
          | false => simp at h
          | true =>
            simp only [Except.ok.injEq, Prod.mk.injEq] at h
            obtain ⟨h1, -⟩ := h
            subst h1
            simp only [unusedLen, List.length_drop, List.length_append, hu,
              List.length_nil, drop_of_take_nil hc]
            omega
      · rw [if_neg hc] at h
        cases hr with
        | none =>
          simp only [decompress] at h
          cases hdb : decompBytes d.phase (st.take cs) with
          | error e =>
            rw [hdb] at h
            simp only [Except.ok.injEq, Prod.mk.injEq] at h
            obtain ⟨h1, -⟩ := h
            subst h1
            simp only [unusedLen, List.length_drop, List.length_append, hu, List.length_nil]
            omega
          | ok r =>
            obtain ⟨ph2, out, extra⟩ := r
            rw [hdb] at h
            simp only [Except.ok.injEq, Prod.mk.injEq] at h
            obtain ⟨h1, -⟩ := h
            subst h1
            have hb := decompBytes_length hdb
            simp only [unusedLen, List.length_drop, List.length_append, hu,
              List.nil_append, List.length_nil]
            omega
        | some b =>
          cases b with
          | false =>
            simp only [Except.ok.injEq, Prod.mk.injEq] at h
            obtain ⟨h1, -⟩ := h
            subst h1
            simp only [unusedLen, List.length_drop, List.length_append, hu, List.length_nil]
            omega
          | true =>
            simp only [decompress] at h
            cases hdb : decompBytes d.phase (st.take cs) with
            | error e => rw [hdb] at h; simp at h
            | ok r =>
              obtain ⟨ph2, out, extra⟩ := r
              rw [hdb] at h
              simp only [Except.ok.injEq, Prod.mk.injEq] at h
              obtain ⟨h1, -⟩ := h
              subst h1
              have hb := decompBytes_length hdb
              simp only [unusedLen, List.length_drop, List.length_append, hu,
                List.nil_append, List.length_nil]
              omega
    · simp only [buffer_chunk, stepInput, readChunk, flushOut] at h
      rw [if_neg hu, if_neg hu] at h
      cases hr with
      | none =>
        simp only [decompress, freshDecompressor] at h
        cases hdb : decompBytes Phase.magic1 d.unused_data with
        | error e =>
          rw [hdb] at h
          simp only [Except.ok.injEq, Prod.mk.injEq] at h
          obtain ⟨h1, -⟩ := h
          subst h1
          simp only [unusedLen, List.length_append, List.length_nil]
          omega
        | ok r =>
          obtain ⟨ph2, out, extra⟩ := r
          rw [hdb] at h
          simp only [Except.ok.injEq, Prod.mk.injEq] at h
          obtain ⟨h1, -⟩ := h
          subst h1
          have hb := decompBytes_length hdb
          simp only [unusedLen, List.length_append, List.nil_append, List.length_nil]
          omega
      | some b =>
        cases b with
        | false =>
          simp only [Except.ok.injEq, Prod.mk.injEq] at h
          obtain ⟨h1, -⟩ := h
          subst h1
          simp only [unusedLen, List.length_append, List.length_nil, freshDecompressor]
          omega
        | true =>
          simp only [decompress, freshDecompressor] at h
          cases hdb : decompBytes Phase.magic1 d.unused_data with
          | error e => rw [hdb] at h; simp at h
          | ok r =>
            obtain ⟨ph2, out, extra⟩ := r
            rw [hdb] at h
            simp only [Except.ok.injEq, Prod.mk.injEq] at h
            obtain ⟨h1, -⟩ := h
            subst h1
            have hb := decompBytes_length hdb
            simp only [unusedLen, List.length_append, List.nil_append, List.length_nil]
            omega

theorem future_len (cs : Nat) : ∀ (n : Nat) (s : TransparentUnzip) (out : List Nat),
    mu s ≤ n → future cs s = Except.ok out →
    out.length ≤ s.buffer.length + unusedLen s + s.stream.length := by
  intro n
  induction n with
  | zero =>
    intro s out hn h
    cases hbc : buffer_chunk cs s with
    | error e => rw [future_bc_error hbc] at h; simp at h
    | ok r =>
      obtain ⟨s', fl⟩ := r
      cases fl with
      | false =>
        rw [future_bc_false hbc] at h
        obtain ⟨hself, -⟩ := bc_false_state hbc
        subst hself
        have : out = s'.buffer := Except.ok.inj h.symm
        subst this
        omega
      | true => exact absurd (mu_decrease hbc) (by omega)
  | succ m ih =>
    intro s out hn h
    cases hbc : buffer_chunk cs s with
    | error e => rw [future_bc_error hbc] at h; simp at h
    | ok r =>
      obtain ⟨s', fl⟩ := r
      cases fl with
      | false =>
        rw [future_bc_false hbc] at h
        obtain ⟨hself, -⟩ := bc_false_state hbc
        subst hself
        have : out = s'.buffer := Except.ok.inj h.symm
        subst this
        omega
      | true =>
        have hlt := mu_decrease hbc
        have h' : future cs s' = Except.ok out := (future_bc_true hbc).symm.trans h
        have := ih s' out (by omega) h'
        have hg := bc_growth hbc
        omega

/-! ### Repeated reads deliver exactly the total output -/

theorem readAllF_of_future (cs k : Nat) (hk : 1 ≤ k) : ∀ (fuel : Nat)
    (s : TransparentUnzip) (out : List Nat), out.length < fuel →
    future cs s = Except.ok out → readAllF fuel cs k s = Except.ok out := by
  intro fuel
  induction fuel with
  | zero =>
    intro s out h1 h2
    omega
  | succ m ih =>
    intro s out h1 h2
    obtain ⟨s2, hr, hf2⟩ := read_decomp (k := k) h2
    simp only [readAllF]
    rw [hr]
    dsimp only
    by_cases hout : out = []
    · subst hout
      simp
    · have hne : out.take k ≠ [] := by
        cases out with
        | nil => exact absurd rfl hout
        | cons a t =>
          cases k with
          | zero => omega
          | succ kk => simp
      rw [if_neg hne]
      have hlen : (out.drop k).length < m := by
        have h0 : 0 < out.length := List.length_pos.mpr hout
        rw [List.length_drop]
        omega
      rw [ih s2 (out.drop k) hlen hf2]
      simp [Except.map, List.take_append_drop]

theorem readAll_of_future {cs k : Nat} {s : TransparentUnzip} {out : List Nat}
    (hk : 1 ≤ k) (h : future cs s = Except.ok out) :
    readAll cs k s = Except.ok out := by
  rw [show readAll cs k s =
    readAllF (s.buffer.length + unusedLen s + s.stream.length + 1) cs k s from rfl]
  apply readAllF_of_future cs k hk _ s out _ h
  have := future_len cs (mu s) s out le_rfl h
  omega

end TransparentUnzipModel

namespace TransparentUnzipModel

/-! ### The readline loop -/

theorem readlineLoopF_exit {cs m checked : Nat} {mb : Option Nat}
    {s : TransparentUnzip} {ni : Option Nat} (h : needMore mb s ni = false) :
    readlineLoopF cs mb m s ni checked = Except.ok (s, ni) := by
  cases m <;> simp [readlineLoopF, h]

theorem readlineLoopF_step {cs m checked : Nat} {mb : Option Nat}
    {s s' : TransparentUnzip} {ni : Option Nat} (h : needMore mb s ni = true)
    (hbc : buffer_chunk cs s = Except.ok (s', true)) :
    readlineLoopF cs mb (m + 1) s ni checked =
      readlineLoopF cs mb m s' (findNL s'.buffer checked) s'.buffer.length := by
  simp [readlineLoopF, h, hbc]

theorem readlineLoopF_stop {cs m checked : Nat} {mb : Option Nat}
    {s s' : TransparentUnzip} {ni : Option Nat} (h : needMore mb s ni = true)
    (hbc : buffer_chunk cs s = Except.ok (s', false)) :
    readlineLoopF cs mb (m + 1) s ni checked = Except.ok (s', ni) := by
  simp [readlineLoopF, h, hbc]

theorem readlineLoop_props (cs : Nat) (mb : Option Nat) : ∀ (fuel : Nat)
    (s s1 : TransparentUnzip) (ni ni1 : Option Nat) (checked : Nat),
    readlineLoopF cs mb fuel s ni checked = Except.ok (s1, ni1) →
    ∀ b, s.header_read = some b → s1.header_read = some b := by
  intro fuel
  induction fuel with
  | zero =>
    intro s s1 ni ni1 checked h b hb
    cases hnm : needMore mb s ni with
    | false =>
      rw [readlineLoopF_exit hnm] at h
      simp only [Except.ok.injEq, Prod.mk.injEq] at h
      obtain ⟨h1, -⟩ := h
      subst h1
      exact hb
    | true =>
      simp only [readlineLoopF] at h
      rw [hnm] at h
      simp at h
  | succ m ih =>
    intro s s1 ni ni1 checked h b hb
    cases hnm : needMore mb s ni with
    | false =>
      rw [readlineLoopF_exit hnm] at h
      simp only [Except.ok.injEq, Prod.mk.injEq] at h
      obtain ⟨h1, -⟩ := h
      subst h1
      exact hb
    | true =>
      cases hbc : buffer_chunk cs s with
      | error e =>
        simp only [readlineLoopF] at h
        rw [hnm, hbc] at h
        simp at h
      | ok r =>
        obtain ⟨s', fl⟩ := r
        cases fl with
        | false =>
          rw [readlineLoopF_stop hnm hbc] at h
          simp only [Except.ok.injEq, Prod.mk.injEq] at h
          obtain ⟨h1, -⟩ := h
          subst h1
          obtain ⟨hself, -⟩ := bc_false_state hbc
          rw [hself]
          exact hb
        | true =>
          rw [readlineLoopF_step hnm hbc] at h
          have hb' := (bc_props hbc).2.2.2.1 b hb
          exact ih s' s1 _ ni1 _ h b hb'

theorem readlineLoop_spec (cs : Nat) (mb : Option Nat) : ∀ (fuel : Nat)
    (s : TransparentUnzip) (ni : Option Nat) (checked : Nat) (out : List Nat),
    mu s < fuel → future cs s = Except.ok out →
    ∃ s1 ni1, readlineLoopF cs mb fuel s ni checked = Except.ok (s1, ni1) ∧
      future cs s1 = Except.ok out ∧
      (needMore mb s1 ni1 = false ∨ buffer_chunk cs s1 = Except.ok (s1, false)) := by
  intro fuel
  induction fuel with
  | zero =>
    intro s ni checked out h1 h2
    omega
  | succ m ih =>
    intro s ni checked out h1 h2
    cases hnm : needMore mb s ni with
    | false =>
      exact ⟨s, ni, readlineLoopF_exit hnm, h2, Or.inl hnm⟩
    | true =>
      cases hbc : buffer_chunk cs s with
      | error e =>
        rw [future_bc_error hbc] at h2
        simp at h2
      | ok r =>
        obtain ⟨s', fl⟩ := r
        cases fl with
        | false =>
          obtain ⟨hself, -⟩ := bc_false_state hbc
          refine ⟨s', ni, readlineLoopF_stop hnm hbc, ?_, Or.inr ?_⟩
          · rw [hself]; exact h2
          · rw [hself] at hbc ⊢; exact hbc
        | true =>
          have h2' : future cs s' = Except.ok out := (future_bc_true hbc).symm.trans h2
          have hlt := mu_decrease hbc
          obtain ⟨s1, ni1, hl, hf, hx⟩ := ih s' (findNL s'.buffer checked)
            s'.buffer.length out (by omega) h2'
          exact ⟨s1, ni1, (readlineLoopF_step hnm hbc).trans hl, hf, hx⟩

/-- The detection flag survives a `readline` call. -/
theorem readline_props {cs : Nat} {mb : Option Nat} {s s2 : TransparentUnzip}
    {line : List Nat} (h : readline cs mb s = Except.ok (s2, line)) :
    ∀ b, s.header_read = some b → s2.header_read = some b := by
  cases hl : readlineLoopF cs mb (mu s + 1) s (findNL s.buffer 0) s.buffer.length with
  | error e =>
    rw [show readline cs mb s = readlineF (mu s + 1) cs mb s from rfl] at h
    simp only [readlineF] at h
    rw [hl] at h
    simp at h
  | ok r =>
    obtain ⟨s1, ni1⟩ := r
    rw [show readline cs mb s = readlineF (mu s + 1) cs mb s from rfl] at h
    simp only [readlineF] at h
    rw [hl] at h
    have hpre := readlineLoop_props cs mb (mu s + 1) s s1 (findNL s.buffer 0)
      ni1 s.buffer.length hl
    intro b hb
    have hb1 := hpre b hb
    cases ni1 with
    | some i =>
      have h' : read cs (i + 1) s1 = Except.ok (s2, line) := h
      exact (read_props h').2.2.2.2.1 b hb1
    | none =>
      cases mb with
      | none =>
        have h' : read cs s1.buffer.length s1 = Except.ok (s2, line) := h
        exact (read_props h').2.2.2.2.1 b hb1
      | some mbv =>
        have h' : read cs mbv s1 = Except.ok (s2, line) := h
        exact (read_props h').2.2.2.2.1 b hb1

/-- The detection flag survives one line-iteration step. -/
theorem next_props {cs : Nat} {s s2 : TransparentUnzip} {line : List Nat}
    (h : next cs s = Except.ok (some (s2, line))) :
    ∀ b, s.header_read = some b → s2.header_read = some b := by
  simp only [next] at h
  cases hrl : readline cs none s with
  | error e => rw [hrl] at h; simp at h
  | ok r =>
    obtain ⟨s', l'⟩ := r
    rw [hrl] at h
    dsimp only at h
    by_cases he : l' = []
    · rw [if_pos he] at h
      simp at h
    · rw [if_neg he] at h
      simp only [Except.ok.injEq, Option.some.injEq, Prod.mk.injEq] at h
      obtain ⟨h1, -⟩ := h
      subst h1
      exact readline_props hrl

/-- One unbounded `readline` call removes a nonempty prefix of the total
remaining output (trivial when nothing remains). -/
theorem readline_decomp {cs : Nat} {s : TransparentUnzip} {out : List Nat}
    (h : future cs s = Except.ok out) :
    ∃ s2 m, 1 ≤ m ∧ readline cs none s = Except.ok (s2, out.take m) ∧
      future cs s2 = Except.ok (out.drop m) := by
  obtain ⟨s1, ni1, hl, hf1, hexit⟩ := readlineLoop_spec cs none (mu s + 1) s
    (findNL s.buffer 0) s.buffer.length out (Nat.lt_succ_self _) h
  cases ni1 with
  | some i =>
    have hrl : readline cs none s = read cs (i + 1) s1 := by
      rw [show readline cs none s = readlineF (mu s + 1) cs none s from rfl]
      simp only [readlineF]
      rw [hl]
    obtain ⟨s2, hr, hf2⟩ := read_decomp (k := i + 1) hf1
    exact ⟨s2, i + 1, by omega, by rw [hrl]; exact hr, hf2⟩
  | none =>
    have hrl : readline cs none s = read cs s1.buffer.length s1 := by
      rw [show readline cs none s = readlineF (mu s + 1) cs none s from rfl]
      simp only [readlineF]
      rw [hl]
    have hbcf : buffer_chunk cs s1 = Except.ok (s1, false) := by
      rcases hexit with hx | hx
      · exfalso
        simp [needMore] at hx
      · exact hx
    have hout : out = s1.buffer := by
      have h3 := future_bc_false hbcf
      rw [hf1] at h3
      exact Except.ok.inj h3
    obtain ⟨s2, hr, hf2⟩ := read_decomp (k := s1.buffer.length) hf1
    by_cases hb : s1.buffer = []
    · refine ⟨s2, 1, le_rfl, ?_, ?_⟩
      · rw [hrl, hr, hout, hb]
        simp
      · rw [hf2, hout, hb]
        simp
    · refine ⟨s2, s1.buffer.length, ?_, ?_, ?_⟩
      · have := List.length_pos.mpr hb
        omega
      · rw [hrl]
        exact hr
      · exact hf2

/-! ### Repeated readline calls deliver exactly the total output -/

theorem linesAllF_of_future (cs : Nat) : ∀ (fuel : Nat) (s : TransparentUnzip)
    (out : List Nat), out.length < fuel → future cs s = Except.ok out →
    linesAllF fuel cs s = Except.ok out := by
  intro fuel
  induction fuel with
  | zero =>
    intro s out h1 h2
    omega
  | succ m ih =>
    intro s out h1 h2
    obtain ⟨s2, mm, hm, hr, hf2⟩ := readline_decomp h2
    simp only [linesAllF]
    rw [hr]
    dsimp only
    by_cases hout : out = []
    · subst hout
      simp
    · have hne : out.take mm ≠ [] := by
        cases out with
        | nil => exact absurd rfl hout
        | cons a t =>
          cases mm with
          | zero => omega
          | succ kk => simp
      rw [if_neg hne]
      have hlen : (out.drop mm).length < m := by
        have h0 : 0 < out.length := List.length_pos.mpr hout
        rw [List.length_drop]
        omega
      rw [ih s2 (out.drop mm) hlen hf2]
      simp [Except.map, List.take_append_drop]

theorem linesAll_of_future {cs : Nat} {s : TransparentUnzip} {out : List Nat}
    (h : future cs s = Except.ok out) : linesAll cs s = Except.ok out := by
  rw [show linesAll cs s =
    linesAllF (s.buffer.length + unusedLen s + s.stream.length + 1) cs s from rfl]
  apply linesAllF_of_future cs _ s out _ h
  have := future_len cs (mu s) s out le_rfl h
  omega

end TransparentUnzipModel

namespace TransparentUnzipModel

/-! ### The claims -/

/-- C1 (counterexample): as stated the claim is false at size 0: `read 0`
on a fresh reader over the one-byte stream [1] returns an empty result
and leaves the state untouched, yet the stream is not exhausted — the
next refill still reports data. -/
theorem claim_C1_counterexample :
    read 16384 0 (initTU [1]) = Except.ok (initTU [1], []) ∧
    (buffer_chunk 16384 (initTU [1])).map (fun r => r.2) = Except.ok true :=
  ⟨rfl, rfl⟩

/-- C1 (amended): `read size` never returns more than `size` bytes;
returns strictly fewer only when refill reports no more data; and
returns an empty result only when `size = 0` or the stream is fully
exhausted (empty buffer and refill reports no more data). -/
theorem claim_C1_amended {cs size : Nat} {s s2 : TransparentUnzip} {part : List Nat}
    (h : read cs size s = Except.ok (s2, part)) :
    part.length ≤ size ∧
    (part.length < size → buffer_chunk cs s2 = Except.ok (s2, false)) ∧
    (part = [] → size = 0 ∨
      (s2.buffer = [] ∧ buffer_chunk cs s2 = Except.ok (s2, false))) := by
  obtain ⟨h1, -, -, -, -, h6, h7⟩ := read_props h
  exact ⟨h1, h6, h7⟩

/-- Witness for the amended C1 at a concrete input. -/
theorem claim_C1_amended_witness :
    ([97, 10] : List Nat).length ≤ 2 ∧
    (([97, 10] : List Nat).length < 2 →
      buffer_chunk 4 ⟨[], some freshDecompressor, some false, [98], 3, 2⟩ =
        Except.ok ((⟨[], some freshDecompressor, some false, [98], 3, 2⟩ :
          TransparentUnzip), false)) ∧
    (([97, 10] : List Nat) = [] → (2 : Nat) = 0 ∨
      ((⟨[], some freshDecompressor, some false, [98], 3, 2⟩ :
          TransparentUnzip).buffer = [] ∧
        buffer_chunk 4 ⟨[], some freshDecompressor, some false, [98], 3, 2⟩ =
          Except.ok ((⟨[], some freshDecompressor, some false, [98], 3, 2⟩ :
            TransparentUnzip), false))) :=
  @claim_C1_amended 4 2 (initTU [97, 10, 98])
    ⟨[], some freshDecompressor, some false, [98], 3, 2⟩ [97, 10] (by rfl)

/-- C2: the code contradicts its own docstring ("Won't return more than
max_bytes bytes"): with `max_bytes = 2` on the raw stream "aaaa\n" the
newline is found at index 4 and `readline` returns all 5 bytes. -/
theorem claim_C2_readline_limit :
    (readline 16384 (some 2) (initTU [97, 97, 97, 97, 10])).map (fun r => r.2) =
      Except.ok [97, 97, 97, 97, 10] ∧
    2 < ([97, 97, 97, 97, 10] : List Nat).length :=
  ⟨rfl, by decide⟩

/-- C3: when the first chunk fails gzip decoding, no decode error is
surfaced and the reconstructed output (both as the total future output
and as the concatenation of repeated reads) is byte-for-byte the
original stream. -/
theorem claim_C3_passthrough {cs k : Nat} {stream : List Nat} (hk : 1 ≤ k)
    (h : decompress freshDecompressor (stream.take cs) = Except.error ()) :
    future cs (initTU stream) = Except.ok stream ∧
    readAll cs k (initTU stream) = Except.ok stream := by
  have hf := future_not_gzip h
  exact ⟨hf, readAll_of_future hk hf⟩

/-- Witness for C3 at a concrete non-gzip input. -/
theorem claim_C3_passthrough_witness :
    future 4 (initTU [97, 98, 99]) = Except.ok [97, 98, 99] ∧
    readAll 4 2 (initTU [97, 98, 99]) = Except.ok [97, 98, 99] :=
  claim_C3_passthrough (by decide) (by rfl)

/-- C4: for a stream of concatenated gzip members the concatenation of
all bytes returned by `read` is the concatenation of the payloads in
member order; and at a member boundary `buffer_chunk` flushes the
finished decoder, discards it, constructs a fresh decoder and feeds it
the leftover trailing bytes as compressed input. -/
theorem claim_C4_members {cs k : Nat} (hcs : 1 ≤ cs) (hk : 1 ≤ k)
    (ps : List (List Nat)) (s : TransparentUnzip) (d : Decompressor)
    (hdec : s.decompressor = some d) (hu : d.unused_data ≠ [])
    (hhr : s.header_read = some true) :
    readAll cs k (initTU (List.map encodeMember ps).flatten) =
      Except.ok ps.flatten ∧
    buffer_chunk cs s =
      (decompress freshDecompressor d.unused_data).map
        (fun r => ({ s with decompressor := some r.1,
                            buffer := s.buffer ++ flushOut d ++ r.2 }, true)) := by
  constructor
  · exact readAll_of_future hk (future_members cs hcs ps)
  · obtain ⟨st, dec, hr, buf, cb, ub⟩ := s
    have hdec' : dec = some d := hdec
    have hhr' : hr = some true := hhr
    subst hdec'
    subst hhr'
    have hu' : d.unused_data ≠ [] := hu
    cases hdc : decompress freshDecompressor d.unused_data with
    | error e =>
      rw [bc_recycle_err hu' hdc]
      rfl
    | ok r =>
      obtain ⟨d2, out⟩ := r
      rw [@bc_recycle_ok cs st d d2 out buf cb ub hu' hdc]
      simp [Except.map, flushOut]

/-- Witness for C4 at two one-byte members and a concrete boundary
state. -/
theorem claim_C4_members_witness :
    readAll 3 2 (initTU (List.map encodeMember [[7], [8]]).flatten) =
      Except.ok ([[7], [8]] : List (List Nat)).flatten ∧
    buffer_chunk 3 ⟨[4], some ⟨Phase.done, [31, 139, 0]⟩, some true, [9], 5, 6⟩ =
      (decompress freshDecompressor
          (⟨Phase.done, [31, 139, 0]⟩ : Decompressor).unused_data).map
        (fun r => ((⟨[4], some r.1, some true,
            [9] ++ flushOut ⟨Phase.done, [31, 139, 0]⟩ ++ r.2, 5, 6⟩ :
            TransparentUnzip), true)) :=
  claim_C4_members (by decide) (by decide) [[7], [8]]
    ⟨[4], some ⟨Phase.done, [31, 139, 0]⟩, some true, [9], 5, 6⟩
    ⟨Phase.done, [31, 139, 0]⟩ rfl (by decide) rfl

/-- C5 (counterexample): the decoded output is NOT independent of the
refill chunk size: on the stream [31, 0] (a gzip magic prefix that turns
out not to be gzip) chunk size 1 confirms compression from the first
byte and then propagates a decode error, while chunk size 2 detects
non-gzip data and passes the bytes through. -/
theorem claim_C5_counterexample :
    future 1 (initTU [31, 0]) = Except.error () ∧
    future 2 (initTU [31, 0]) = Except.ok [31, 0] :=
  ⟨rfl, rfl⟩

/-- C5 (amended): the decoded output is identical for any two chunk
sizes ≥ 1 when the stream is a concatenation of complete gzip members,
and when the stream's first byte is not the gzip magic byte 31 (so
detection fails at every chunk size). -/
theorem claim_C5_amended {cs1 cs2 : Nat} (h1 : 1 ≤ cs1) (h2 : 1 ≤ cs2)
    (ps : List (List Nat)) (st : List Nat)
    (hst : ∀ x, st.head? = some x → x ≠ 31) :
    future cs1 (initTU (List.map encodeMember ps).flatten) =
      future cs2 (initTU (List.map encodeMember ps).flatten) ∧
    future cs1 (initTU st) = future cs2 (initTU st) := by
  constructor
  · rw [future_members cs1 h1 ps, future_members cs2 h2 ps]
  · cases st with
    | nil => rw [future_init_nil, future_init_nil]
    | cons x t =>
      have hx : x ≠ 31 := hst x rfl
      have herr : ∀ cs, 1 ≤ cs →
          decompress freshDecompressor ((x :: t).take cs) = Except.error () := by
        intro cs hcs
        cases cs with
        | zero => omega
        | succ m =>
          show decompress freshDecompressor (x :: t.take m) = _
          simp [decompress, freshDecompressor, decompBytes, hx]
      rw [future_not_gzip (herr cs1 h1), future_not_gzip (herr cs2 h2)]

/-- Witness for the amended C5 at concrete chunk sizes and inputs. -/
theorem claim_C5_amended_witness :
    future 1 (initTU (List.map encodeMember [[5]]).flatten) =
      future 3 (initTU (List.map encodeMember [[5]]).flatten) ∧
    future 1 (initTU [7, 8]) = future 3 (initTU [7, 8]) :=
  claim_C5_amended (by decide) (by decide) [[5]] [7, 8]
    (by intro x hx; simp at hx; omega)

/-- C6: the compression-detected flag starts unknown, and once known it
is preserved by every operation (`buffer_chunk`, `read`, `readline`,
line iteration via `next`, `start_stats`); on the first chunk it becomes
true exactly when the decode attempt succeeds and false exactly when it
fails. -/
theorem claim_C6_flag_tristate {cs : Nat} {s : TransparentUnzip} {b : Bool}
    (hb : s.header_read = some b) :
    (∀ st, (initTU st).header_read = none) ∧
    (∀ s2 f, buffer_chunk cs s = Except.ok (s2, f) → s2.header_read = some b) ∧
    (∀ k s2 p, read cs k s = Except.ok (s2, p) → s2.header_read = some b) ∧
    (∀ mb s2 p, readline cs mb s = Except.ok (s2, p) → s2.header_read = some b) ∧
    (∀ s2 p, next cs s = Except.ok (some (s2, p)) → s2.header_read = some b) ∧
    (start_stats s).header_read = some b ∧
    (∀ st d s2 f, (initTU st).decompressor = some d →
      buffer_chunk cs (initTU st) = Except.ok (s2, f) → st.take cs ≠ [] →
      ((∃ r, decompress d (st.take cs) = Except.ok r) →
        s2.header_read = some true) ∧
      (decompress d (st.take cs) = Except.error () →
        s2.header_read = some false)) := by
  refine ⟨fun st => rfl, ?_, ?_, ?_, ?_, hb, ?_⟩
  · intro s2 f h
    exact (bc_props h).2.2.2.1 b hb
  · intro k s2 p h
    exact (read_props h).2.2.2.2.1 b hb
  · intro mb s2 p h
    exact readline_props h b hb
  · intro s2 p h
    exact next_props h b hb
  · intro st d s2 f hdec hbc htake
    have hd : d = freshDecompressor := by
      have h0 : some freshDecompressor = some d := hdec
      exact (Option.some.inj h0).symm
    subst hd
    constructor
    · rintro ⟨⟨d2, out⟩, hr2⟩
      rw [show initTU st = ⟨st, some freshDecompressor, none, [], 0, 0⟩ from rfl,
        bc_detect_ok rfl htake hr2] at hbc
      simp only [Except.ok.injEq, Prod.mk.injEq] at hbc
      obtain ⟨h1, -⟩ := hbc
      rw [← h1]
    · intro herr
      rw [show initTU st = ⟨st, some freshDecompressor, none, [], 0, 0⟩ from rfl,
        bc_detect_err rfl htake herr] at hbc
      simp only [Except.ok.injEq, Prod.mk.injEq] at hbc
      obtain ⟨h1, -⟩ := hbc
      rw [← h1]

/-- Witness for C6 at a concrete reader with the flag already false. -/
theorem claim_C6_flag_tristate_witness :
    (start_stats ⟨[], some freshDecompressor, some false, [1, 2], 3, 0⟩).header_read =
      some false ∧
    (⟨[], some freshDecompressor, some false, [2], 3, 1⟩ :
      TransparentUnzip).header_read = some false :=
  ⟨(@claim_C6_flag_tristate 4
      ⟨[], some freshDecompressor, some false, [1, 2], 3, 0⟩ false rfl).2.2.2.2.2.1,
   (@claim_C6_flag_tristate 4
      ⟨[], some freshDecompressor, some false, [1, 2], 3, 0⟩ false rfl).2.2.1 1
      ⟨[], some freshDecompressor, some false, [2], 3, 1⟩ [1] (by rfl)⟩

/-- C7: the concatenation of the results of repeated unbounded
`readline` calls (until an empty result) equals the concatenation of all
bytes `read` delivers for the same stream. -/
theorem claim_C7_lines_eq_read {cs k : Nat} {s : TransparentUnzip} {out : List Nat}
    (hk : 1 ≤ k) (h : future cs s = Except.ok out) :
    linesAll cs s = Except.ok out ∧ readAll cs k s = Except.ok out :=
  ⟨linesAll_of_future h, readAll_of_future hk h⟩

/-- Witness for C7 at a concrete two-line raw stream. -/
theorem claim_C7_lines_eq_read_witness :
    linesAll 16384 (initTU [104, 105, 10, 121]) = Except.ok [104, 105, 10, 121] ∧
    readAll 16384 3 (initTU [104, 105, 10, 121]) = Except.ok [104, 105, 10, 121] :=
  claim_C7_lines_eq_read (by decide) (by rfl)

/-- C8: `read 0` returns an empty result and changes nothing: the
underlying stream, decompressor, detection flag, buffer and both
counters are all exactly as before. -/
theorem claim_C8_read_zero (cs : Nat) (s : TransparentUnzip) :
    read cs 0 s = Except.ok (s, []) := by
  obtain ⟨st, dec, hr, buf, cb, ub⟩ := s
  rw [show read cs 0 ⟨st, dec, hr, buf, cb, ub⟩ =
    readF (mu ⟨st, dec, hr, buf, cb, ub⟩ + 1) cs 0 ⟨st, dec, hr, buf, cb, ub⟩ from rfl]
  simp only [readF]
  rw [readLoopF_done (Nat.zero_le _)]
  simp

/-- C9: `start_stats` zeroes both counters and touches nothing else;
`get_stats` returns the counter pair, which is (0, 0) right after a
reset; and after a reset followed by one `read`, the counters hold
exactly the bytes consumed from the underlying stream and the bytes
delivered to the caller. -/
theorem claim_C9_stats {cs k : Nat} (s : TransparentUnzip) {s2 : TransparentUnzip}
    {part : List Nat} (h : read cs k (start_stats s) = Except.ok (s2, part)) :
    start_stats s = ⟨s.stream, s.decompressor, s.header_read, s.buffer, 0, 0⟩ ∧
    get_stats s = (s.compressed_bytes, s.uncompressed_bytes) ∧
    get_stats (start_stats s) = (0, 0) ∧
    get_stats s2 = (s.stream.length - s2.stream.length, part.length) := by
  refine ⟨rfl, rfl, rfl, ?_⟩
  obtain ⟨-, hub, hcb, -, -, -, -⟩ := read_props h
  simp only [start_stats] at hub hcb
  simp only [get_stats]
  rw [hub, hcb]
  simp

/-- Witness for C9 at a concrete reader with dirty counters. -/
theorem claim_C9_stats_witness :
    start_stats ⟨[1, 2], some freshDecompressor, none, [], 7, 9⟩ =
      ⟨[1, 2], some freshDecompressor, none, [], 0, 0⟩ ∧
    get_stats ⟨[1, 2], some freshDecompressor, none, [], 7, 9⟩ = (7, 9) ∧
    get_stats (start_stats ⟨[1, 2], some freshDecompressor, none, [], 7, 9⟩) = (0, 0) ∧
    get_stats ⟨[], some freshDecompressor, some false, [], 2, 2⟩ =
      ((⟨[1, 2], some freshDecompressor, none, [], 7, 9⟩ :
          TransparentUnzip).stream.length -
        (⟨[], some freshDecompressor, some false, [], 2, 2⟩ :
          TransparentUnzip).stream.length,
       ([1, 2] : List Nat).length) :=
  @claim_C9_stats 4 3 ⟨[1, 2], some freshDecompressor, none, [], 7, 9⟩
    ⟨[], some freshDecompressor, some false, [], 2, 2⟩ [1, 2] (by rfl)

/-- C10: the compressed-bytes counter advances by exactly the number of
bytes pulled off the underlying stream in each refill, and the
member-boundary branch that recycles a finished decoder's leftover
trailing bytes neither touches the counter nor the stream. -/
theorem claim_C10_counter {cs : Nat} {s s2 : TransparentUnzip} {f : Bool}
    (h : buffer_chunk cs s = Except.ok (s2, f)) :
    s2.compressed_bytes = s.compressed_bytes + (s.stream.length - s2.stream.length) ∧
    s2.stream.length ≤ s.stream.length ∧
    (∀ d, s.decompressor = some d → d.unused_data ≠ [] →
      s2.compressed_bytes = s.compressed_bytes ∧ s2.stream = s.stream) := by
  obtain ⟨-, hcb, hst, -, -⟩ := bc_props h
  refine ⟨hcb, hst, ?_⟩
  intro d0 hdec hu
  obtain ⟨st, dec, hr, buf, cb, ub⟩ := s
  have hdec' : dec = some d0 := hdec
  subst hdec'
  have hu' : d0.unused_data ≠ [] := hu
  simp only [buffer_chunk, stepInput, readChunk, flushOut] at h
  rw [if_neg hu', if_neg hu'] at h
  cases hr with
  | none =>
    simp only [decompress, freshDecompressor] at h
    cases hdb : decompBytes Phase.magic1 d0.unused_data with
    | error e =>
      rw [hdb] at h
      simp only [Except.ok.injEq, Prod.mk.injEq] at h
      obtain ⟨h1, -⟩ := h
      rw [← h1]
      exact ⟨rfl, rfl⟩
    | ok r =>
      obtain ⟨ph2, out, extra⟩ := r
      rw [hdb] at h
      simp only [Except.ok.injEq, Prod.mk.injEq] at h
      obtain ⟨h1, -⟩ := h
      rw [← h1]
      exact ⟨rfl, rfl⟩
  | some b =>
    cases b with
    | false =>
      simp only [Except.ok.injEq, Prod.mk.injEq] at h
      obtain ⟨h1, -⟩ := h
      rw [← h1]
      exact ⟨rfl, rfl⟩
    | true =>
      simp only [decompress, freshDecompressor] at h
      cases hdb : decompBytes Phase.magic1 d0.unused_data with
      | error e => rw [hdb] at h; simp at h
      | ok r =>
        obtain ⟨ph2, out, extra⟩ := r
        rw [hdb] at h
        simp only [Except.ok.injEq, Prod.mk.injEq] at h
        obtain ⟨h1, -⟩ := h
        rw [← h1]
        exact ⟨rfl, rfl⟩

/-- Witness for C10 at a concrete member-boundary refill. -/
theorem claim_C10_counter_witness :
    (⟨[4], some ⟨Phase.done, []⟩, some true, [], 5, 6⟩ :
        TransparentUnzip).compressed_bytes =
      (⟨[4], some ⟨Phase.done, [31, 139, 0]⟩, some true, [], 5, 6⟩ :
        TransparentUnzip).compressed_bytes ∧
    (⟨[4], some ⟨Phase.done, []⟩, some true, [], 5, 6⟩ :
        TransparentUnzip).stream =
      (⟨[4], some ⟨Phase.done, [31, 139, 0]⟩, some true, [], 5, 6⟩ :
        TransparentUnzip).stream :=
  (@claim_C10_counter 3 ⟨[4], some ⟨Phase.done, [31, 139, 0]⟩, some true, [], 5, 6⟩
      ⟨[4], some ⟨Phase.done, []⟩, some true, [], 5, 6⟩ true (by rfl)).2.2
    ⟨Phase.done, [31, 139, 0]⟩ rfl (by decide)

end TransparentUnzipModel
